import Mathlib

/-!
Verification of the 3D-scanner reconstruction pipeline
(`image_processing.py`, `mesh_generation.py`, `geometry.py`).

The Python sources are shallowly embedded: integer pixel data becomes
`Nat`/`Int`, floating point values become `Real`, Python exceptions
(IndexError on `mesh_points[0]` / `prev_row[-1]`) become `Option`.
Pixel grids produced by `process_image` hold only the values 0 and 1,
so processed rasters are embedded as `List (List Bool)`.
-/

/-- Vertex from `geometry.py`: a 3D point (also reused by the pipeline as a
cylindrical sample (height, angle, radius)). -/
structure Vertex where
  x : ℝ
  y : ℝ
  z : ℝ

/-- Face from `geometry.py`: a triangular face given by three 1-based vertex
indices. -/
structure Face where
  v1 : ℕ
  v2 : ℕ
  v3 : ℕ
deriving DecidableEq

/-- Calibrated vertical scale factor of `MeshGenerator` (mm per pixel). -/
noncomputable def HEIGHT_SCALE : ℝ := 0.188

/-- Calibrated radial scale factor of `MeshGenerator` (mm per pixel). -/
noncomputable def RADIAL_SCALE : ℝ := 0.157

/-- Calibration constant `center_column` of `ImageProcessor`. -/
noncomputable def center_column : ℝ := 352

/-- Calibration constant `height_mm_per_pixel` of `ImageProcessor`. -/
noncomputable def height_mm_per_pixel : ℝ := 0.119069

/-- Calibration constant `radial_mm_per_pixel` of `ImageProcessor`. -/
noncomputable def radial_mm_per_pixel : ℝ := 0.157199

/-- Python `int(...)` applied to a real value: truncation toward zero. -/
noncomputable def pyInt (t : ℝ) : ℤ := if 0 ≤ t then ⌊t⌋ else ⌈t⌉

/-- MeshGenerator.cylindrical_to_cartesian: height and radius are scaled,
the Cartesian coordinates are computed with cos/sin and truncated to
integers by Python `int(...)`. -/
noncomputable def cylindrical_to_cartesian (coord : Vertex) : Vertex :=
  let height := coord.x * HEIGHT_SCALE
  let theta := coord.y
  let dist := coord.z * RADIAL_SCALE
  ⟨(pyInt (dist * Real.cos theta) : ℝ),
   (pyInt (dist * Real.sin theta) : ℝ),
   (pyInt height : ℝ)⟩

/-- One step of the `while len(line) > shortest: line.pop(-2)` loop of
`MeshGenerator.normalize_mesh_points`: removes the second-to-last element.
Python raises IndexError on `pop(-2)` when the list has fewer than two
elements, hence the `Option`. -/
def normalize_line (shortest : ℕ) (line : List α) : Option (List α) :=
  if line.length ≤ shortest then some line
  else if 2 ≤ line.length then
    normalize_line shortest (line.take (line.length - 2) ++ line.drop (line.length - 1))
  else none
termination_by line.length
decreasing_by
  simp only [List.length_append, List.length_take, List.length_drop]
  omega

/-- Python `min(len(line) for line in mesh_points)` over a nonempty list of
rows (0 for an empty list, a case `normalize_mesh_points` never reaches). -/
def shortestLen (mesh_points : List (List α)) : ℕ :=
  match mesh_points with
  | [] => 0
  | line0 :: rest => rest.foldl (fun a line => min a line.length) line0.length

/-- MeshGenerator.normalize_mesh_points: trim every row to the length of the
shortest row by repeatedly popping the second-to-last element. -/
def normalize_mesh_points (mesh_points : List (List α)) : Option (List (List α)) :=
  match mesh_points with
  | [] => some []
  | line0 :: rest =>
    (line0 :: rest).mapM (normalize_line (shortestLen (line0 :: rest)))

/-- ImageProcessor.downsample_coordinates: keep index 0, the indices in
`range(1, len-1)` divisible by `interval = len // vertical_resolution`, and
the final index; if `interval = 0` return the input unchanged.  (In Python,
`vertical_resolution = 0` would raise ZeroDivisionError; the claims only
concern `vertical_resolution ≥ 1`.) -/
def downsample_coordinates (coords : List α) (vertical_resolution : ℕ) : List α :=
  match coords with
  | [] => []
  | c0 :: rest =>
    let n := (c0 :: rest).length
    let interval := n / vertical_resolution
    if interval = 0 then c0 :: rest
    else
      c0 :: (((List.range' 1 (n - 2)).filterMap
        (fun i => if i % interval = 0 then (c0 :: rest).get? i else none)) ++
        [(c0 :: rest).getLast (by simp)])

/-- Fixed-stride selection as worded in the specification of the
Downsampler: with `interval = N div V`, if `interval = 0` the input is
returned unchanged, otherwise the output consists of index 0, every
positive multiple of `interval` strictly below `N - 1`, and index `N - 1`;
empty input gives empty output. -/
def strideSelection (coords : List α) (V : ℕ) : List α :=
  if coords.length = 0 then []
  else
    let n := coords.length
    let interval := n / V
    if interval = 0 then coords
    else (List.range n).filterMap (fun i =>
      if i = 0 ∨ (0 < i ∧ i < n - 1 ∧ i % interval = 0) ∨ i = n - 1 then
        coords.get? i
      else none)

/-- Splitting lemma for index ranges. -/
theorem range'_split_add (s a b : ℕ) :
    List.range' s (a + b) = List.range' s a ++ List.range' (s + a) b := by
  rw [List.range'_append_1]
  congr 1
  omega

/-- C5: for a ScanLine of N ≥ 2 samples and target resolution V ≥ 1, the
downsampled output contains the first and last original sample, has length
at most N, and equals the fixed-stride selection described by the
specification; empty input yields empty output. -/
theorem downsample_coordinates_spec (c0 : α) (rest : List α) (V : ℕ)
    (hN : 2 ≤ (c0 :: rest).length) (hV : 1 ≤ V) :
    c0 ∈ downsample_coordinates (c0 :: rest) V ∧
    (c0 :: rest).getLast (by simp) ∈ downsample_coordinates (c0 :: rest) V ∧
    (downsample_coordinates (c0 :: rest) V).length ≤ (c0 :: rest).length ∧
    downsample_coordinates (c0 :: rest) V = strideSelection (c0 :: rest) V ∧
    downsample_coordinates ([] : List α) V = [] := by
  have hne : (c0 :: rest).length ≠ 0 := by simp
  by_cases hi : (c0 :: rest).length / V = 0
  · have hd : downsample_coordinates (c0 :: rest) V = c0 :: rest := by
      unfold downsample_coordinates
      simp only []
      rw [if_pos hi]
    have hs : strideSelection (c0 :: rest) V = c0 :: rest := by
      unfold strideSelection
      rw [if_neg hne]
      simp only []
      rw [if_pos hi]
    refine ⟨?_, ?_, ?_, ?_, rfl⟩
    · rw [hd]; exact List.mem_cons_self _ _
    · rw [hd]; exact List.getLast_mem _
    · rw [hd]
    · rw [hd, hs]
  · set n := (c0 :: rest).length with hn
    set interval := n / V with hint
    have hd : downsample_coordinates (c0 :: rest) V =
        c0 :: (((List.range' 1 (n - 2)).filterMap
          (fun i => if i % interval = 0 then (c0 :: rest).get? i else none)) ++
          [(c0 :: rest).getLast (by simp)]) := by
      unfold downsample_coordinates
      simp only []
      rw [if_neg hi]
    have hlen : ((List.range' 1 (n - 2)).filterMap
        (fun i => if i % interval = 0 then (c0 :: rest).get? i else none)).length ≤ n - 2 := by
      calc ((List.range' 1 (n - 2)).filterMap
          (fun i => if i % interval = 0 then (c0 :: rest).get? i else none)).length
          ≤ (List.range' 1 (n - 2)).length := List.length_filterMap_le _ _
        _ = n - 2 := List.length_range' _ _ _
    refine ⟨?_, ?_, ?_, ?_, rfl⟩
    · rw [hd]; exact List.mem_cons_self _ _
    · rw [hd]; simp
    · rw [hd]
      have h2 : (c0 :: (((List.range' 1 (n - 2)).filterMap
          (fun i => if i % interval = 0 then (c0 :: rest).get? i else none)) ++
          [(c0 :: rest).getLast (by simp)])).length =
          ((List.range' 1 (n - 2)).filterMap
            (fun i => if i % interval = 0 then (c0 :: rest).get? i else none)).length + 2 := by
        simp
      rw [h2]
      omega
    · rw [hd]
      have hsplit : List.range n = [0] ++ (List.range' 1 (n - 2) ++ [n - 1]) :=
        calc List.range n = List.range' 0 n := List.range_eq_range' n
          _ = List.range' 0 (1 + ((n - 2) + 1)) := by congr 1; omega
          _ = List.range' 0 1 ++ List.range' 1 ((n - 2) + 1) := range'_split_add 0 1 ((n - 2) + 1)
          _ = [0] ++ (List.range' 1 (n - 2) ++ List.range' (1 + (n - 2)) 1) := by
              rw [range'_split_add 1 (n - 2) 1]; rfl
          _ = [0] ++ (List.range' 1 (n - 2) ++ [n - 1]) := by
              rw [List.range'_one]
              have h3 : 1 + (n - 2) = n - 1 := by omega
              rw [h3]
      have hlast : (c0 :: rest)[n - 1]? = some ((c0 :: rest).getLast (by simp)) := by
        rw [List.getElem?_eq_getElem (by omega : n - 1 < (c0 :: rest).length)]
        rw [List.getLast_eq_getElem]
      unfold strideSelection
      rw [if_neg hne]
      simp only []
      rw [if_neg hi, hsplit, List.filterMap_append, List.filterMap_append]
      have hzero : List.filterMap (fun i =>
          if i = 0 ∨ (0 < i ∧ i < n - 1 ∧ i % interval = 0) ∨ i = n - 1 then
            (c0 :: rest).get? i else none) [0] = [c0] := by
        simp
      have hend : List.filterMap (fun i =>
          if i = 0 ∨ (0 < i ∧ i < n - 1 ∧ i % interval = 0) ∨ i = n - 1 then
            (c0 :: rest).get? i else none) [n - 1] = [(c0 :: rest).getLast (by simp)] := by
        simp [hlast]
      have hmid : List.filterMap (fun i =>
          if i = 0 ∨ (0 < i ∧ i < n - 1 ∧ i % interval = 0) ∨ i = n - 1 then
            (c0 :: rest).get? i else none) (List.range' 1 (n - 2)) =
          List.filterMap (fun i => if i % interval = 0 then (c0 :: rest).get? i else none)
            (List.range' 1 (n - 2)) := by
        apply List.filterMap_congr
        intro i hiMem
        rw [List.mem_range'_1] at hiMem
        by_cases hm : i % interval = 0
        · rw [if_pos (Or.inr (Or.inl ⟨by omega, by omega, hm⟩)), if_pos hm]
        · rw [if_neg ?_, if_neg hm]
          rintro (h0 | hmidc | hlastc)
          · omega
          · exact hm hmidc.2.2
          · omega
      rw [hzero, hend, hmid]
      simp

/-- Witness for C5 at the concrete ScanLine [0, 1, 2, 3, 4] with V = 2. -/
theorem downsample_coordinates_spec_witness :
    2 ≤ ([0, 1, 2, 3, 4] : List ℕ).length ∧ 1 ≤ 2 ∧
    ((0 : ℕ) ∈ downsample_coordinates ([0, 1, 2, 3, 4] : List ℕ) 2 ∧
     ([0, 1, 2, 3, 4] : List ℕ).getLast (by simp) ∈
       downsample_coordinates ([0, 1, 2, 3, 4] : List ℕ) 2 ∧
     (downsample_coordinates ([0, 1, 2, 3, 4] : List ℕ) 2).length ≤
       ([0, 1, 2, 3, 4] : List ℕ).length ∧
     downsample_coordinates ([0, 1, 2, 3, 4] : List ℕ) 2 =
       strideSelection ([0, 1, 2, 3, 4] : List ℕ) 2 ∧
     downsample_coordinates ([] : List ℕ) 2 = []) :=
  ⟨by decide, by decide, downsample_coordinates_spec 0 [1, 2, 3, 4] 2 (by decide) (by decide)⟩

/-- Dropping all but one element of a nonempty list leaves its last element. -/
theorem drop_length_sub_one {l : List α} (h : l ≠ []) :
    l.drop (l.length - 1) = [l.getLast h] := by
  induction l with
  | nil => exact absurd rfl h
  | cons a t ih =>
    cases t with
    | nil => simp
    | cons b u =>
      have h2 : (a :: b :: u).length - 1 = ((b :: u).length - 1) + 1 := by
        simp
      rw [h2, List.drop_succ_cons, ih (by simp), List.getLast_cons_cons]

/-- The foldl computing the running minimum of row lengths is a lower bound
attained by some row. -/
theorem foldl_min_spec (rest : List (List α)) :
    ∀ a : ℕ, rest.foldl (fun a line => min a line.length) a ≤ a ∧
      (∀ line ∈ rest, rest.foldl (fun a line => min a line.length) a ≤ line.length) ∧
      (rest.foldl (fun a line => min a line.length) a = a ∨
        ∃ line ∈ rest, rest.foldl (fun a line => min a line.length) a = line.length) := by
  induction rest with
  | nil => intro a; exact ⟨le_rfl, by simp, Or.inl rfl⟩
  | cons l t ih =>
    intro a
    obtain ⟨h1, h2, h3⟩ := ih (min a l.length)
    refine ⟨le_trans h1 (min_le_left _ _), ?_, ?_⟩
    · intro line hm
      rcases List.mem_cons.mp hm with h | h
      · subst h; exact le_trans h1 (min_le_right _ _)
      · exact h2 line h
    · rcases h3 with h | ⟨line, hm, he⟩
      · rcases Nat.le_total a l.length with hle | hle
        · exact Or.inl (by rw [List.foldl_cons, h]; omega)
        · exact Or.inr ⟨l, by simp, by rw [List.foldl_cons, h]; omega⟩
      · exact Or.inr ⟨line, List.mem_cons_of_mem _ hm, he⟩

/-- Closed form of the `pop(-2)` loop: with a positive target length that
the row meets, the loop keeps the first `shortest - 1` elements and the last
element. -/
theorem normalize_line_eq (s : ℕ) (hs : 1 ≤ s) :
    ∀ (k : ℕ) (line : List α), s ≤ line.length → line.length - s = k →
      normalize_line s line = some (line.take (s - 1) ++ line.drop (line.length - 1)) := by
  intro k
  induction k with
  | zero =>
    intro line hle hk
    have he : line.length = s := by omega
    rw [normalize_line, if_pos (by omega)]
    rw [← he]
    have h3 : line.length - 1 = line.length - 1 := rfl
    rw [show line.length - 1 = line.length - 1 from rfl]
    rw [show line.take (line.length - 1) ++ line.drop (line.length - 1) = line from
      List.take_append_drop _ _]
  | succ k ih =>
    intro line hle hk
    have hlen2 : 2 ≤ line.length := by omega
    rw [normalize_line, if_neg (by omega), if_pos hlen2]
    set l2 := line.take (line.length - 2) ++ line.drop (line.length - 1) with hl2
    have hlen : l2.length = line.length - 1 := by
      rw [hl2]
      simp only [List.length_append, List.length_take, List.length_drop]
      omega
    rw [ih l2 (by omega) (by omega)]
    congr 1
    have htake : l2.take (s - 1) = line.take (s - 1) := by
      rw [hl2, List.take_append_of_le_length (by simp; omega), List.take_take]
      congr 1
      omega
    have hdrop : l2.drop (l2.length - 1) = line.drop (line.length - 1) := by
      rw [hlen, hl2]
      have h4 : line.length - 1 - 1 = (line.take (line.length - 2)).length := by
        simp only [List.length_take]
        omega
      rw [h4, List.drop_left]
    rw [htake, hdrop]

/-- Taking at least one element preserves the head. -/
theorem head?_take {l : List α} {k : ℕ} (hk : 1 ≤ k) : (l.take k).head? = l.head? := by
  obtain ⟨m, rfl⟩ : ∃ m, k = m + 1 := ⟨k - 1, by omega⟩
  cases l <;> simp

/-- Option-valued mapM with everywhere-defined results is a map. -/
theorem mapM_eq_some_map {f : α → Option β} {g : α → β} :
    ∀ {l : List α}, (∀ x ∈ l, f x = some (g x)) → l.mapM f = some (l.map g) := by
  intro l
  induction l with
  | nil => intro _; rfl
  | cons a t ih =>
    intro h
    rw [List.mapM_cons, h a (List.mem_cons_self _ _),
      ih (fun x hx => h x (List.mem_cons_of_mem _ hx))]
    rfl

/-- C6 (amended): for a non-empty rotation buffer all of whose rows have at
least two points, normalization succeeds, truncates every row to the common
length `shortestLen` — which is the length of a shortest row, is at least 2,
and bounds every row from below — and every output row keeps the head and
the last element of its input row and is a sublist of it (so only interior
points are removed). -/
theorem normalize_mesh_points_spec (line0 : List α) (rest : List (List α))
    (h2 : ∀ line ∈ line0 :: rest, 2 ≤ line.length) :
    ∃ out, normalize_mesh_points (line0 :: rest) = some out ∧
      out.length = (line0 :: rest).length ∧
      2 ≤ shortestLen (line0 :: rest) ∧
      (∀ line ∈ line0 :: rest, shortestLen (line0 :: rest) ≤ line.length) ∧
      (∃ line ∈ line0 :: rest, shortestLen (line0 :: rest) = line.length) ∧
      List.Forall₂ (fun line oline : List α =>
        oline.length = shortestLen (line0 :: rest) ∧
        oline.head? = line.head? ∧
        oline.getLast? = line.getLast? ∧
        oline.Sublist line) (line0 :: rest) out := by
  obtain ⟨ha, hrest, heq⟩ := foldl_min_spec rest line0.length
  have hsdef : shortestLen (line0 :: rest) =
      rest.foldl (fun a line => min a line.length) line0.length := rfl
  set s := shortestLen (line0 :: rest) with hsv
  have hmin : ∀ line ∈ line0 :: rest, s ≤ line.length := by
    intro line hm
    rcases List.mem_cons.mp hm with h | h
    · subst h; rw [hsdef]; exact ha
    · rw [hsdef]; exact hrest line h
  have hex : ∃ line ∈ line0 :: rest, s = line.length := by
    rcases heq with h | ⟨line, hm, he⟩
    · exact ⟨line0, List.mem_cons_self _ _, by rw [hsdef, h]⟩
    · exact ⟨line, List.mem_cons_of_mem _ hm, by rw [hsdef, he]⟩
  have h2s : 2 ≤ s := by
    obtain ⟨line, hm, he⟩ := hex
    have := h2 line hm
    omega
  refine ⟨(line0 :: rest).map
    (fun line => line.take (s - 1) ++ line.drop (line.length - 1)), ?_, by simp, h2s, hmin, hex, ?_⟩
  · show (line0 :: rest).mapM (normalize_line s) = _
    apply mapM_eq_some_map
    intro line hm
    exact normalize_line_eq s (by omega) (line.length - s) line (hmin line hm) rfl
  · rw [List.forall₂_map_right_iff]
    rw [List.forall₂_same]
    intro line hm
    have hlen : s ≤ line.length := hmin line hm
    have hl2 : 2 ≤ line.length := h2 line hm
    have hne : line ≠ [] := by
      intro h
      rw [h] at hl2
      simp at hl2
    refine ⟨?_, ?_, ?_, ?_⟩
    · simp only [List.length_append, List.length_take, List.length_drop]
      omega
    · rw [List.head?_append, head?_take (by omega : 1 ≤ s - 1)]
      cases line with
      | nil => exact absurd rfl hne
      | cons a t => simp
    · rw [drop_length_sub_one hne, List.getLast?_concat,
        List.getLast?_eq_getLast line hne]
    · have hsub : List.Sublist (line.drop (line.length - 1)) (line.drop (s - 1)) :=
        List.drop_sublist_drop_left line (by omega)
      have := List.Sublist.append_left hsub (line.take (s - 1))
      rwa [List.take_append_drop] at this

/-- Counterexample to C6 as stated: on the buffer [[0], [1, 2]] the loop
pops index 0 of the second row (its FIRST element) and leaves a row of
length 1 < 2. -/
theorem normalize_mesh_points_cex :
    normalize_mesh_points ([[0], [1, 2]] : List (List ℕ)) = some [[0], [2]] ∧
    ([2] : List ℕ).head? ≠ ([1, 2] : List ℕ).head? ∧ ([2] : List ℕ).length < 2 := by
  refine ⟨?_, by decide, by decide⟩
  have hs : shortestLen ([[0], [1, 2]] : List (List ℕ)) = 1 := rfl
  have h1 : normalize_line 1 ([0] : List ℕ) = some [0] := by
    rw [normalize_line]
    simp
  have e1 : ([1, 2] : List ℕ).take (([1, 2] : List ℕ).length - 2) ++
      ([1, 2] : List ℕ).drop (([1, 2] : List ℕ).length - 1) = [2] := rfl
  have h2 : normalize_line 1 ([1, 2] : List ℕ) = some [2] := by
    rw [normalize_line, if_neg (by decide), if_pos (by decide), e1,
      normalize_line, if_pos (by decide)]
  show ([[0], [1, 2]] : List (List ℕ)).mapM
    (normalize_line (shortestLen ([[0], [1, 2]] : List (List ℕ)))) = some [[0], [2]]
  rw [hs, List.mapM_cons, h1, List.mapM_cons, h2]
  rfl

/-- Witness for C6 at the concrete buffer [[0, 1, 2], [3, 4]]. -/
theorem normalize_mesh_points_spec_witness :
    (∀ line ∈ ([[0, 1, 2], [3, 4]] : List (List ℕ)), 2 ≤ line.length) ∧
    (∃ out, normalize_mesh_points ([[0, 1, 2], [3, 4]] : List (List ℕ)) = some out ∧
      out.length = ([[0, 1, 2], [3, 4]] : List (List ℕ)).length ∧
      2 ≤ shortestLen ([[0, 1, 2], [3, 4]] : List (List ℕ)) ∧
      (∀ line ∈ ([[0, 1, 2], [3, 4]] : List (List ℕ)),
        shortestLen ([[0, 1, 2], [3, 4]] : List (List ℕ)) ≤ line.length) ∧
      (∃ line ∈ ([[0, 1, 2], [3, 4]] : List (List ℕ)),
        shortestLen ([[0, 1, 2], [3, 4]] : List (List ℕ)) = line.length) ∧
      List.Forall₂ (fun line oline : List ℕ =>
        oline.length = shortestLen ([[0, 1, 2], [3, 4]] : List (List ℕ)) ∧
        oline.head? = line.head? ∧
        oline.getLast? = line.getLast? ∧
        oline.Sublist line) ([[0, 1, 2], [3, 4]] : List (List ℕ)) out) :=
  ⟨by decide, normalize_mesh_points_spec [0, 1, 2] [[3, 4]] (by decide)⟩

/-- Inner loop of MeshGenerator.generate_mesh over `point_idx` in
`range(len(column) - 1)`: emits the two triangles of each quad, converts and
appends the column points (including the final point at the last
iteration), and appends the wrap-closing faces when processing the final
angular row.  Out-of-range list accesses (Python IndexError) yield `none`. -/
noncomputable def mesh_col_loop (first_row prev_row : List ℕ) (column : List Vertex) (index_start : ℕ)
    (isLast : Bool) (point_idx : ℕ) (points : List Vertex) (faces : List Face)
    (current_row : List ℕ) : Option (List Vertex × List Face × List ℕ) :=
  if point_idx < column.length - 1 then do
    let tl := index_start + point_idx + 1
    let bl := tl + 1
    let tr ← prev_row.get? point_idx
    let br ← prev_row.get? (point_idx + 1)
    let faces1 := faces ++ [Face.mk tl tr bl, Face.mk bl tr br]
    let c ← column.get? point_idx
    let points1 := points ++ [cylindrical_to_cartesian c]
    let current1 := current_row ++ [tl]
    let st2 ←
      if point_idx = column.length - 2 then do
        let c2 ← column.get? (point_idx + 1)
        some (points1 ++ [cylindrical_to_cartesian c2], current1 ++ [bl])
      else some (points1, current1)
    let faces2 ←
      if isLast then do
        let tlc ← first_row.get? point_idx
        let blc ← first_row.get? (point_idx + 1)
        some (faces1 ++ [Face.mk tlc tl blc, Face.mk blc tl bl])
      else some faces1
    mesh_col_loop first_row prev_row column index_start isLast (point_idx + 1)
      st2.1 faces2 st2.2
  else some (points, faces, current_row)
termination_by column.length - point_idx

/-- Outer loop of MeshGenerator.generate_mesh over the angular rows after
the first one: `index_start = prev_row[-1]` (IndexError on an empty
`prev_row` yields `none`), then the inner loop, then the next row with
`prev_row = current_row`. -/
noncomputable def mesh_rows_loop (first_row : List ℕ) :
    List (List Vertex) → List ℕ → List Vertex → List Face →
    Option (List Vertex × List Face)
  | [], _, points, faces => some (points, faces)
  | column :: rest, prev_row, points, faces => do
    let index_start ← prev_row.getLast?
    let st ← mesh_col_loop first_row prev_row column index_start rest.isEmpty 0
      points faces []
    mesh_rows_loop first_row rest st.2.2 st.1 st.2.1

/-- MeshGenerator.generate_mesh: convert the first row and assign it the
1-based indices `1 .. L`, then run the row loop on the remaining rows.
`mesh_points[0]` raises IndexError on an empty buffer, hence `none`. -/
noncomputable def generate_mesh (mesh_points : List (List Vertex)) :
    Option (List Vertex × List Face) := do
  let row0 ← mesh_points.head?
  mesh_rows_loop ((List.range row0.length).map (· + 1)) mesh_points.tail
    ((List.range row0.length).map (· + 1)) (row0.map cylindrical_to_cartesian) []

/-- Faces emitted by one iteration of the inner loop of `generate_mesh`
(quad split into two triangles, plus the two wrap-closing triangles on the
final angular row). -/
def meshBlock (prev_row first_row : List ℕ) (s : ℕ) (isLast : Bool) (j : ℕ) : List Face :=
  [Face.mk (s + j + 1) (prev_row.getD j 0) (s + j + 2),
   Face.mk (s + j + 2) (prev_row.getD j 0) (prev_row.getD (j + 1) 0)] ++
  (if isLast then
    [Face.mk (first_row.getD j 0) (s + j + 1) (first_row.getD (j + 1) 0),
     Face.mk (first_row.getD (j + 1) 0) (s + j + 1) (s + j + 2)]
   else [])

/-- Valid gets are the default-free getD. -/
theorem get?_eq_some_getD {l : List ℕ} {n : ℕ} (h : n < l.length) (d : ℕ) :
    l.get? n = some (l.getD n d) := by
  rw [List.get?_eq_getElem?, List.getElem?_eq_getElem h, List.getD_eq_getElem?_getD,
    List.getElem?_eq_getElem h]
  rfl

/-- getD on an index range. -/
theorem getD_range' {s n j d : ℕ} (h : j < n) : (List.range' s n).getD j d = s + j := by
  rw [List.getD_eq_getElem?_getD,
    List.getElem?_eq_getElem (by simp only [List.length_range']; exact h)]
  simp

/-- Closed form of the inner loop of `generate_mesh` for uniform row length
L: starting at `point_idx`, the loop appends the converted remaining column
points, the face blocks of the remaining quads, and the new row indices. -/
theorem mesh_col_loop_spec (first_row prev_row : List ℕ) (column : List Vertex) (s : ℕ)
    (isLast : Bool) (L : ℕ) (hL : 2 ≤ L) (hcol : column.length = L)
    (hprev : prev_row.length = L) (hfirst : first_row.length = L) :
    ∀ (k point_idx : ℕ), point_idx + k + 1 = L →
      ∀ (points : List Vertex) (faces : List Face) (current_row : List ℕ),
      mesh_col_loop first_row prev_row column s isLast point_idx points faces current_row =
        some (points ++ (if point_idx + 1 < L then
                (column.drop point_idx).map cylindrical_to_cartesian else []),
              faces ++ ((List.range' point_idx (L - 1 - point_idx)).map
                (meshBlock prev_row first_row s isLast)).flatten,
              current_row ++ (if point_idx + 1 < L then
                List.range' (s + point_idx + 1) (L - point_idx) else [])) := by
  intro k
  induction k with
  | zero =>
    intro point_idx hpk points faces current_row
    rw [mesh_col_loop, if_neg (by omega : ¬ point_idx < column.length - 1)]
    have h1 : ¬ (point_idx + 1 < L) := by omega
    have h2 : L - 1 - point_idx = 0 := by omega
    rw [if_neg h1, if_neg h1, h2]
    simp
  | succ k ih =>
    intro point_idx hpk points faces current_row
    have hpiL : point_idx + 1 < L := by omega
    rw [mesh_col_loop, if_pos (by omega : point_idx < column.length - 1)]
    have htr : prev_row.get? point_idx = some (prev_row.getD point_idx 0) :=
      get?_eq_some_getD (by omega) 0
    have hbr : prev_row.get? (point_idx + 1) = some (prev_row.getD (point_idx + 1) 0) :=
      get?_eq_some_getD (by omega) 0
    have hcp : point_idx < column.length := by omega
    have hc : column.get? point_idx = some (column.get ⟨point_idx, hcp⟩) :=
      List.get?_eq_get hcp
    have hdropc : column.drop point_idx =
        column.get ⟨point_idx, hcp⟩ :: column.drop (point_idx + 1) := by
      rw [List.drop_eq_getElem_cons hcp]
      rfl
    by_cases hend : point_idx = column.length - 2
    · -- final iteration: the last column point is appended as well
      have hk0 : point_idx + 1 + 1 = L := by omega
      have hcp1 : point_idx + 1 < column.length := by omega
      have hc2 : column.get? (point_idx + 1) = some (column.get ⟨point_idx + 1, hcp1⟩) :=
        List.get?_eq_get hcp1
      have hdropc1 : column.drop (point_idx + 1) =
          column.get ⟨point_idx + 1, hcp1⟩ :: column.drop (point_idx + 2) := by
        rw [List.drop_eq_getElem_cons hcp1]
        rfl
      have hdrop2 : column.drop (point_idx + 2) = [] := by
        apply List.drop_eq_nil_of_le
        omega
      have hrange : L - 1 - point_idx = 1 := by omega
      simp only [htr, hbr, hc, hc2, Option.bind_eq_bind, Option.some_bind]
      rw [if_pos hend]
      cases isLast with
      | false =>
        simp only [Bool.false_eq_true, if_false, Option.bind_eq_bind, Option.some_bind]
        rw [ih (point_idx + 1) (by omega) _ _ _]
        rw [if_neg (by omega : ¬ point_idx + 1 + 1 < L),
          if_neg (by omega : ¬ point_idx + 1 + 1 < L)]
        have hr0 : L - 1 - (point_idx + 1) = 0 := by omega
        rw [hr0, hrange]
        simp only [List.range'_zero, List.map_nil, List.flatten_nil, List.append_nil,
          List.range'_one, List.map_cons, List.map_nil, List.flatten_cons,
          List.flatten_nil, List.append_nil]
        refine congrArg some ?_
        refine Prod.ext ?_ (Prod.ext ?_ ?_) <;> simp only
        · rw [if_pos hpiL, hdropc, hdropc1, hdrop2]
          simp
        · rw [meshBlock]
          simp [List.append_assoc]
        · rw [if_pos hpiL]
          have h5 : L - point_idx = 2 := by omega
          rw [h5]
          have h6 : List.range' (s + point_idx + 1) 2 =
              [s + point_idx + 1, s + point_idx + 2] := rfl
          rw [h6]
          simp
      | true =>
        have htlc : first_row.get? point_idx = some (first_row.getD point_idx 0) :=
          get?_eq_some_getD (by omega) 0
        have hblc : first_row.get? (point_idx + 1) = some (first_row.getD (point_idx + 1) 0) :=
          get?_eq_some_getD (by omega) 0
        simp only [if_true, htlc, hblc, Option.bind_eq_bind, Option.some_bind]
        rw [ih (point_idx + 1) (by omega) _ _ _]
        rw [if_neg (by omega : ¬ point_idx + 1 + 1 < L),
          if_neg (by omega : ¬ point_idx + 1 + 1 < L)]
        have hr0 : L - 1 - (point_idx + 1) = 0 := by omega
        rw [hr0, hrange]
        simp only [List.range'_zero, List.map_nil, List.flatten_nil, List.append_nil,
          List.range'_one, List.map_cons, List.map_nil, List.flatten_cons,
          List.flatten_nil, List.append_nil]
        refine congrArg some ?_
        refine Prod.ext ?_ (Prod.ext ?_ ?_) <;> simp only
        · rw [if_pos hpiL, hdropc, hdropc1, hdrop2]
          simp
        · rw [meshBlock]
          simp [List.append_assoc]
        · rw [if_pos hpiL]
          have h5 : L - point_idx = 2 := by omega
          rw [h5]
          have h6 : List.range' (s + point_idx + 1) 2 =
              [s + point_idx + 1, s + point_idx + 2] := rfl
          rw [h6]
          simp
    · -- middle iteration
      have hmid : point_idx + 2 < L := by
        rcases Nat.lt_or_ge (point_idx + 2) L with h | h
        · exact h
        · exact absurd (by omega : point_idx = column.length - 2) hend
      simp only [htr, hbr, hc, Option.bind_eq_bind, Option.some_bind]
      rw [if_neg hend]
      have hrange : L - 1 - point_idx = (L - 1 - (point_idx + 1)) + 1 := by omega
      cases isLast with
      | false =>
        simp only [Bool.false_eq_true, if_false, Option.bind_eq_bind, Option.some_bind]
        rw [ih (point_idx + 1) (by omega) _ _ _]
        rw [if_pos (by omega : point_idx + 1 + 1 < L),
          if_pos (by omega : point_idx + 1 + 1 < L)]
        refine congrArg some ?_
        refine Prod.ext ?_ (Prod.ext ?_ ?_) <;> simp only
        · rw [if_pos hpiL, hdropc]
          simp only [List.map_cons, List.append_assoc, List.singleton_append]
        · rw [hrange, List.range'_succ, List.map_cons, List.flatten_cons, meshBlock]
          simp [List.append_assoc]
        · rw [if_pos hpiL]
          have h5 : L - point_idx = (L - (point_idx + 1)) + 1 := by omega
          rw [h5, List.range'_succ]
          simp [List.append_assoc]
          omega
      | true =>
        have htlc : first_row.get? point_idx = some (first_row.getD point_idx 0) :=
          get?_eq_some_getD (by omega) 0
        have hblc : first_row.get? (point_idx + 1) = some (first_row.getD (point_idx + 1) 0) :=
          get?_eq_some_getD (by omega) 0
        simp only [if_true, htlc, hblc, Option.bind_eq_bind, Option.some_bind]
        rw [ih (point_idx + 1) (by omega) _ _ _]
        rw [if_pos (by omega : point_idx + 1 + 1 < L),
          if_pos (by omega : point_idx + 1 + 1 < L)]
        refine congrArg some ?_
        refine Prod.ext ?_ (Prod.ext ?_ ?_) <;> simp only
        · rw [if_pos hpiL, hdropc]
          simp only [List.map_cons, List.append_assoc, List.singleton_append]
        · rw [hrange, List.range'_succ, List.map_cons, List.flatten_cons, meshBlock]
          simp [List.append_assoc]
        · rw [if_pos hpiL]
          have h5 : L - point_idx = (L - (point_idx + 1)) + 1 := by omega
          rw [h5, List.range'_succ]
          simp [List.append_assoc]
          omega

/-- Length of one face block of the inner loop. -/
theorem meshBlock_length (prev_row first_row : List ℕ) (s : ℕ) (isLast : Bool) (j : ℕ) :
    (meshBlock prev_row first_row s isLast j).length = if isLast then 4 else 2 := by
  cases isLast <;> simp [meshBlock]

/-- Length of a flattened map whose blocks have constant length. -/
theorem flatten_map_length_const {β : Type _} {f : ℕ → List β} {c : ℕ} :
    ∀ (l : List ℕ), (∀ j ∈ l, (f j).length = c) →
      ((l.map f).flatten).length = l.length * c := by
  intro l
  induction l with
  | nil => intro _; simp
  | cons a t ih =>
    intro h
    simp only [List.map_cons, List.flatten_cons, List.length_append,
      h a (List.mem_cons_self _ _), ih (fun j hj => h j (List.mem_cons_of_mem _ hj)),
      List.length_cons]
    ring

/-- Index bounds for every face of one block of the inner loop. -/
theorem meshBlock_bounds (b L j : ℕ) (isLast : Bool) (hL : 2 ≤ L) (hj : j < L - 1)
    (T : ℕ) (hT : b + 2 * L ≤ T) :
    ∀ f ∈ meshBlock (List.range' (b + 1) L) (List.range' 1 L) (b + L) isLast j,
      1 ≤ f.v1 ∧ f.v1 ≤ T ∧ 1 ≤ f.v2 ∧ f.v2 ≤ T ∧ 1 ≤ f.v3 ∧ f.v3 ≤ T := by
  have e1 : (List.range' (b + 1) L).getD j 0 = b + 1 + j := getD_range' (by omega)
  have e2 : (List.range' (b + 1) L).getD (j + 1) 0 = b + 1 + (j + 1) := getD_range' (by omega)
  have e3 : (List.range' 1 L).getD j 0 = 1 + j := getD_range' (by omega)
  have e4 : (List.range' 1 L).getD (j + 1) 0 = 1 + (j + 1) := getD_range' (by omega)
  intro f hf
  rw [meshBlock] at hf
  cases isLast with
  | false =>
    simp only [Bool.false_eq_true, if_false, List.append_nil, List.mem_cons,
      List.mem_singleton, List.not_mem_nil, or_false] at hf
    rcases hf with hf | hf <;> subst hf <;>
      refine ⟨?_, ?_, ?_, ?_, ?_, ?_⟩ <;> simp only [e1, e2] <;> omega
  | true =>
    simp only [if_true, List.mem_append, List.mem_cons,
      List.mem_singleton, List.not_mem_nil, or_false] at hf
    rcases hf with (hf | hf) | (hf | hf) <;> subst hf <;>
      refine ⟨?_, ?_, ?_, ?_, ?_, ?_⟩ <;> simp only [e1, e2, e3, e4] <;> omega

/-- The wrap-closing faces contained in one final-row block. -/
theorem meshBlock_closing (b L j : ℕ) (hL : 2 ≤ L) (hj : j < L - 1) :
    Face.mk (j + 1) (b + L + j + 1) (j + 2) ∈
      meshBlock (List.range' (b + 1) L) (List.range' 1 L) (b + L) true j ∧
    Face.mk (j + 2) (b + L + j + 1) (b + L + j + 2) ∈
      meshBlock (List.range' (b + 1) L) (List.range' 1 L) (b + L) true j := by
  have e3 : (List.range' 1 L).getD j 0 = 1 + j := getD_range' (by omega)
  have e4 : (List.range' 1 L).getD (j + 1) 0 = 1 + (j + 1) := getD_range' (by omega)
  rw [meshBlock, if_pos rfl]
  constructor
  · apply List.mem_append_right
    refine List.mem_cons.mpr (Or.inl ?_)
    rw [e3, e4]
    simp only [Face.mk.injEq, and_true, true_and]
    omega
  · apply List.mem_append_right
    refine List.mem_cons.mpr (Or.inr (List.mem_cons.mpr (Or.inl ?_)))
    rw [e4]
    simp only [Face.mk.injEq, and_true, true_and]
    omega

/-- Closed form of the outer row loop of `generate_mesh` for uniform row
length L: starting after `b + L` already-emitted vertices whose last row
occupies indices `b+1 .. b+L`, the loop appends all remaining converted
points and emits faces whose count is `2(L-1)` per processed row plus
`2(L-1)` closing faces, whose indices stay within `[1, total]`, and which
include the wrap-closing faces joining the final row to the first row. -/
theorem mesh_rows_loop_spec (L : ℕ) (hL : 2 ≤ L) :
    ∀ (rest : List (List Vertex)), (∀ col ∈ rest, col.length = L) →
    ∀ (b : ℕ) (points : List Vertex) (faces : List Face), points.length = b + L →
      ∃ fcs : List Face,
        mesh_rows_loop (List.range' 1 L) rest (List.range' (b + 1) L) points faces =
          some (points ++ rest.flatten.map cylindrical_to_cartesian, faces ++ fcs) ∧
        fcs.length = 2 * (L - 1) * rest.length +
          (if rest.isEmpty then 0 else 2 * (L - 1)) ∧
        (∀ f ∈ fcs, 1 ≤ f.v1 ∧ f.v1 ≤ b + L + rest.length * L ∧
          1 ≤ f.v2 ∧ f.v2 ≤ b + L + rest.length * L ∧
          1 ≤ f.v3 ∧ f.v3 ≤ b + L + rest.length * L) ∧
        (rest ≠ [] → ∀ j, j < L - 1 →
          Face.mk (j + 1) (b + rest.length * L + j + 1) (j + 2) ∈ fcs ∧
          Face.mk (j + 2) (b + rest.length * L + j + 1)
            (b + rest.length * L + j + 2) ∈ fcs) := by
  intro rest
  induction rest with
  | nil =>
    intro _ b points faces hpts
    refine ⟨[], ?_, by simp, by simp, by simp⟩
    simp [mesh_rows_loop]
  | cons column rest2 ih =>
    intro hcols b points faces hpts
    have hcol : column.length = L := hcols column (List.mem_cons_self _ _)
    have hne : List.range' (b + 1) L ≠ [] := by
      rw [List.range'_ne_nil]
      omega
    have hlast : (List.range' (b + 1) L).getLast? = some (b + L) := by
      rw [List.getLast?_eq_getLast _ hne, List.getLast_range']
      congr 1
      omega
    have hinner := mesh_col_loop_spec (List.range' 1 L) (List.range' (b + 1) L) column
      (b + L) rest2.isEmpty L hL hcol (by simp) (by simp) (L - 1) 0 (by omega)
      points faces []
    rw [if_pos (by omega : (0 : ℕ) + 1 < L)] at hinner
    rw [if_pos (by omega : (0 : ℕ) + 1 < L)] at hinner
    set innerF := ((List.range' 0 (L - 1 - 0)).map
      (meshBlock (List.range' (b + 1) L) (List.range' 1 L) (b + L) rest2.isEmpty)).flatten
      with hIF
    have hpts2 : (points ++ (column.drop 0).map cylindrical_to_cartesian).length =
        (b + L) + L := by
      simp [hpts, hcol]
    obtain ⟨fcs2, heq2, hlen2, hbound2, hclose2⟩ :=
      ih (fun col hm => hcols col (List.mem_cons_of_mem _ hm)) (b + L)
        (points ++ (column.drop 0).map cylindrical_to_cartesian) (faces ++ innerF) hpts2
    refine ⟨innerF ++ fcs2, ?_, ?_, ?_, ?_⟩
    · rw [mesh_rows_loop]
      rw [hlast]
      simp only [Option.bind_eq_bind, Option.some_bind]
      rw [hinner]
      simp only [Option.some_bind, List.nil_append]
      have harg : List.range' (b + L + 0 + 1) (L - 0) = List.range' (b + L + 1) L := by
        congr 1 <;> omega
      rw [harg]
      rw [heq2]
      simp [List.append_assoc]
    · have hIFlen : innerF.length = (L - 1) * (if rest2.isEmpty then 4 else 2) := by
        rw [hIF]
        rw [flatten_map_length_const (List.range' 0 (L - 1 - 0))
          (fun j _ => meshBlock_length _ _ _ _ j)]
        simp
      simp only [List.length_append, hIFlen, hlen2, List.length_cons, List.isEmpty_cons,
        Bool.false_eq_true, if_false]
      cases rest2 with
      | nil =>
        simp
        try ring_nf
        try omega
      | cons c2 r2 =>
        simp only [List.isEmpty_cons, Bool.false_eq_true, if_false, List.length_cons]
        rw [Nat.mul_succ, Nat.mul_succ]
        try ring_nf
        try omega
    · intro f hf
      have hTgoal : b + L + L + rest2.length * L = b + L + (rest2.length + 1) * L := by
        rw [Nat.succ_mul]
        omega
      rcases List.mem_append.mp hf with hf | hf
      · have hj := hIF ▸ hf
        rw [List.mem_flatten] at hj
        obtain ⟨lblock, hlb, hfb⟩ := hj
        rw [List.mem_map] at hlb
        obtain ⟨j, hjr, rfl⟩ := hlb
        rw [List.mem_range'_1] at hjr
        have hb := meshBlock_bounds b L j rest2.isEmpty hL (by omega)
          (b + L + (rest2.length + 1) * L)
          (by rw [Nat.succ_mul]; omega) f hfb
        simpa using hb
      · have hb := hbound2 f hf
        rw [hTgoal] at hb
        simpa using hb
    · intro _ j hj
      have hidx : b + (rest2.length + 1) * L + j + 1 = b + L + rest2.length * L + j + 1 := by
        rw [Nat.succ_mul]
        omega
      have hidx2 : b + (rest2.length + 1) * L + j + 2 = b + L + rest2.length * L + j + 2 := by
        rw [Nat.succ_mul]
        omega
      simp only [List.length_cons]
      cases rest2 with
      | nil =>
        have hcl := meshBlock_closing b L j hL hj
        have hjm : j ∈ List.range' 0 (L - 1 - 0) := by
          rw [List.mem_range'_1]
          omega
        have hmem1 : Face.mk (j + 1) (b + L + j + 1) (j + 2) ∈ innerF := by
          rw [hIF, List.mem_flatten]
          exact ⟨meshBlock (List.range' (b + 1) L) (List.range' 1 L) (b + L) true j,
            List.mem_map.mpr ⟨j, hjm, by simp⟩, hcl.1⟩
        have hmem2 : Face.mk (j + 2) (b + L + j + 1) (b + L + j + 2) ∈ innerF := by
          rw [hIF, List.mem_flatten]
          exact ⟨meshBlock (List.range' (b + 1) L) (List.range' 1 L) (b + L) true j,
            List.mem_map.mpr ⟨j, hjm, by simp⟩, hcl.2⟩
        have e1 : b + (([] : List (List Vertex)).length + 1) * L + j + 1 = b + L + j + 1 := by
          simp
        have e2 : b + (([] : List (List Vertex)).length + 1) * L + j + 2 = b + L + j + 2 := by
          simp
        constructor
        · rw [e1]
          exact List.mem_append_left _ hmem1
        · rw [e1, e2]
          exact List.mem_append_left _ hmem2
      | cons c2 r2 =>
        have hcl := hclose2 (by simp) j hj
        simp only [List.length_cons] at hcl
        constructor
        · rw [hidx]
          exact List.mem_append_right _ hcl.1
        · rw [hidx, hidx2]
          exact List.mem_append_right _ hcl.2

/-- Length of a flattened list of uniform-length rows. -/
theorem flatten_length_const {β : Type _} {L : ℕ} :
    ∀ {l : List (List β)}, (∀ col ∈ l, col.length = L) →
      l.flatten.length = l.length * L := by
  intro l
  induction l with
  | nil => intro _; simp
  | cons a t ih =>
    intro h
    simp only [List.flatten_cons, List.length_append, h a (List.mem_cons_self _ _),
      ih (fun c hc => h c (List.mem_cons_of_mem _ hc)), List.length_cons]
    ring

/-- The 1-based first-row indices of `generate_mesh` form an index range. -/
theorem range_map_add_one (n : ℕ) : (List.range n).map (· + 1) = List.range' 1 n := by
  rw [List.range'_eq_map_range]
  apply List.map_congr_left
  intro a _
  omega

/-- C1: for a normalized buffer of R ≥ 2 angular rows of exactly L ≥ 2
samples each, generate_mesh produces exactly R·L vertices and exactly
2·(L−1)·R faces, among them the wrap-closing faces connecting the last
angular row back to the first row. -/
theorem generate_mesh_counts (mesh_points : List (List Vertex)) (R L : ℕ)
    (hR : 2 ≤ R) (hL : 2 ≤ L) (hlen : mesh_points.length = R)
    (hrows : ∀ row ∈ mesh_points, row.length = L) :
    ∃ points faces, generate_mesh mesh_points = some (points, faces) ∧
      points.length = R * L ∧
      faces.length = 2 * (L - 1) * R ∧
      ∀ j, j < L - 1 →
        Face.mk (j + 1) ((R - 1) * L + j + 1) (j + 2) ∈ faces ∧
        Face.mk (j + 2) ((R - 1) * L + j + 1) ((R - 1) * L + j + 2) ∈ faces := by
  cases mesh_points with
  | nil => rw [List.length_nil] at hlen; omega
  | cons row0 rest =>
    have hrow0 : row0.length = L := hrows row0 (List.mem_cons_self _ _)
    have hrestlen : rest.length + 1 = R := by simpa using hlen
    have hrestne : rest ≠ [] := by
      intro h
      rw [h] at hrestlen
      simp at hrestlen
      omega
    obtain ⟨fcs, heq, hlenf, hbound, hclose⟩ := mesh_rows_loop_spec L hL rest
      (fun col hm => hrows col (List.mem_cons_of_mem _ hm)) 0
      (row0.map cylindrical_to_cartesian) [] (by simp [hrow0])
    have heq2 : mesh_rows_loop (List.range' 1 L) rest (List.range' 1 L)
        (row0.map cylindrical_to_cartesian) [] =
        some (row0.map cylindrical_to_cartesian ++ rest.flatten.map cylindrical_to_cartesian,
          [] ++ fcs) := heq
    rw [List.nil_append] at heq2
    refine ⟨row0.map cylindrical_to_cartesian ++ rest.flatten.map cylindrical_to_cartesian,
      fcs, ?_, ?_, ?_, ?_⟩
    · unfold generate_mesh
      simp only [List.head?_cons, Option.bind_eq_bind, Option.some_bind, List.tail_cons,
        hrow0, range_map_add_one]
      exact heq2
    · simp only [List.length_append, List.length_map,
        flatten_length_const (fun col hm => hrows col (List.mem_cons_of_mem _ hm)), hrow0]
      rw [← hrestlen, Nat.succ_mul]
      omega
    · rw [hlenf, if_neg (by simpa using hrestne)]
      rw [← hrestlen, Nat.mul_succ]
    · intro j hj
      have hcl := hclose hrestne j hj
      rw [Nat.zero_add] at hcl
      have hr1 : R - 1 = rest.length := by omega
      rw [hr1]
      exact ⟨hcl.1, hcl.2⟩

/-- Witness for C1: the Scenario D buffer of 4 angular rows of 5 points. -/
theorem generate_mesh_counts_witness :
    2 ≤ 4 ∧ 2 ≤ 5 ∧
    (List.replicate 4 (List.replicate 5 (Vertex.mk 0 0 0))).length = 4 ∧
    (∀ row ∈ List.replicate 4 (List.replicate 5 (Vertex.mk 0 0 0)), row.length = 5) ∧
    (∃ points faces,
      generate_mesh (List.replicate 4 (List.replicate 5 (Vertex.mk 0 0 0))) =
        some (points, faces) ∧
      points.length = 4 * 5 ∧
      faces.length = 2 * (5 - 1) * 4 ∧
      ∀ j, j < 5 - 1 →
        Face.mk (j + 1) ((4 - 1) * 5 + j + 1) (j + 2) ∈ faces ∧
        Face.mk (j + 2) ((4 - 1) * 5 + j + 1) ((4 - 1) * 5 + j + 2) ∈ faces) :=
  ⟨by omega, by omega, by simp, fun row hm => by rw [List.eq_of_mem_replicate hm]; simp,
    generate_mesh_counts _ 4 5 (by omega) (by omega) (by simp)
      (fun row hm => by rw [List.eq_of_mem_replicate hm]; simp)⟩

/-- C2: for a normalized buffer of R ≥ 2 rows of uniform length L ≥ 2,
every face emitted by generate_mesh references only vertex indices in
[1, R·L], and the final angular row contributes faces referencing first-row
indices that close the surface back to the first row. -/
theorem generate_mesh_face_indices (mesh_points : List (List Vertex)) (R L : ℕ)
    (hR : 2 ≤ R) (hL : 2 ≤ L) (hlen : mesh_points.length = R)
    (hrows : ∀ row ∈ mesh_points, row.length = L) :
    ∃ points faces, generate_mesh mesh_points = some (points, faces) ∧
      points.length = R * L ∧
      (∀ f ∈ faces, 1 ≤ f.v1 ∧ f.v1 ≤ R * L ∧ 1 ≤ f.v2 ∧ f.v2 ≤ R * L ∧
        1 ≤ f.v3 ∧ f.v3 ≤ R * L) ∧
      ∀ j, j < L - 1 →
        Face.mk (j + 1) ((R - 1) * L + j + 1) (j + 2) ∈ faces ∧
        Face.mk (j + 2) ((R - 1) * L + j + 1) ((R - 1) * L + j + 2) ∈ faces := by
  cases mesh_points with
  | nil => rw [List.length_nil] at hlen; omega
  | cons row0 rest =>
    have hrow0 : row0.length = L := hrows row0 (List.mem_cons_self _ _)
    have hrestlen : rest.length + 1 = R := by simpa using hlen
    have hrestne : rest ≠ [] := by
      intro h
      rw [h] at hrestlen
      simp at hrestlen
      omega
    obtain ⟨fcs, heq, hlenf, hbound, hclose⟩ := mesh_rows_loop_spec L hL rest
      (fun col hm => hrows col (List.mem_cons_of_mem _ hm)) 0
      (row0.map cylindrical_to_cartesian) [] (by simp [hrow0])
    have heq2 : mesh_rows_loop (List.range' 1 L) rest (List.range' 1 L)
        (row0.map cylindrical_to_cartesian) [] =
        some (row0.map cylindrical_to_cartesian ++ rest.flatten.map cylindrical_to_cartesian,
          [] ++ fcs) := heq
    rw [List.nil_append] at heq2
    have hRL : 0 + L + rest.length * L = R * L := by
      rw [← hrestlen, Nat.succ_mul]
      omega
    refine ⟨row0.map cylindrical_to_cartesian ++ rest.flatten.map cylindrical_to_cartesian,
      fcs, ?_, ?_, ?_, ?_⟩
    · unfold generate_mesh
      simp only [List.head?_cons, Option.bind_eq_bind, Option.some_bind, List.tail_cons,
        hrow0, range_map_add_one]
      exact heq2
    · simp only [List.length_append, List.length_map,
        flatten_length_const (fun col hm => hrows col (List.mem_cons_of_mem _ hm)), hrow0]
      rw [← hrestlen, Nat.succ_mul]
      omega
    · intro f hf
      have hb := hbound f hf
      rw [hRL] at hb
      exact hb
    · intro j hj
      have hcl := hclose hrestne j hj
      rw [Nat.zero_add] at hcl
      have hr1 : R - 1 = rest.length := by omega
      rw [hr1]
      exact ⟨hcl.1, hcl.2⟩

/-- Witness for C2 at a buffer of 2 angular rows of 2 points. -/
theorem generate_mesh_face_indices_witness :
    2 ≤ 2 ∧
    (List.replicate 2 (List.replicate 2 (Vertex.mk 0 0 0))).length = 2 ∧
    (∀ row ∈ List.replicate 2 (List.replicate 2 (Vertex.mk 0 0 0)), row.length = 2) ∧
    (∃ points faces,
      generate_mesh (List.replicate 2 (List.replicate 2 (Vertex.mk 0 0 0))) =
        some (points, faces) ∧
      points.length = 2 * 2 ∧
      (∀ f ∈ faces, 1 ≤ f.v1 ∧ f.v1 ≤ 2 * 2 ∧ 1 ≤ f.v2 ∧ f.v2 ≤ 2 * 2 ∧
        1 ≤ f.v3 ∧ f.v3 ≤ 2 * 2) ∧
      ∀ j, j < 2 - 1 →
        Face.mk (j + 1) ((2 - 1) * 2 + j + 1) (j + 2) ∈ faces ∧
        Face.mk (j + 2) ((2 - 1) * 2 + j + 1) ((2 - 1) * 2 + j + 2) ∈ faces) :=
  ⟨by omega, by simp, fun row hm => by rw [List.eq_of_mem_replicate hm]; simp,
    generate_mesh_face_indices _ 2 2 (by omega) (by omega) (by simp)
      (fun row hm => by rw [List.eq_of_mem_replicate hm]; simp)⟩

/-- C8 (amended): generate_mesh performs no degeneracy validation: only the
empty buffer fails (the Python IndexError on `mesh_points[0]`), while a
buffer with a single angular row — degenerate input the claim says must be
rejected — returns that row converted to vertices together with an empty
face list. -/
theorem generate_mesh_no_degeneracy_check :
    generate_mesh ([] : List (List Vertex)) = none ∧
    ∀ row : List Vertex, generate_mesh [row] = some (row.map cylindrical_to_cartesian, []) := by
  constructor
  · rfl
  · intro row
    unfold generate_mesh
    simp only [List.head?_cons, Option.bind_eq_bind, Option.some_bind, List.tail_cons]
    rw [mesh_rows_loop]

/-- Counterexample to C8 as stated: a buffer of one angular row with two
points is degenerate (fewer than two angular rows), yet generate_mesh
neither fails nor withholds output — it returns two vertices. -/
theorem generate_mesh_cex :
    generate_mesh [[Vertex.mk 0 0 0, Vertex.mk 0 0 0]] =
      some ([Vertex.mk 0 0 0, Vertex.mk 0 0 0], []) ∧
    ([Vertex.mk 0 0 0, Vertex.mk 0 0 0] : List Vertex).length = 2 := by
  refine ⟨?_, rfl⟩
  have hc : cylindrical_to_cartesian (Vertex.mk 0 0 0) = Vertex.mk 0 0 0 := by
    unfold cylindrical_to_cartesian pyInt
    norm_num
  unfold generate_mesh
  simp only [List.head?_cons, Option.bind_eq_bind, Option.some_bind, List.tail_cons]
  rw [mesh_rows_loop]
  rw [List.map_cons, List.map_cons, List.map_nil, hc]

/-- Python `np.argmax(row)` on a binary raster row: the index of the first
maximal entry, i.e. the leftmost lit pixel when one exists, else 0. -/
def np_argmax (row : List Bool) : ℕ := (row.findIdx? id).getD 0

/-- ImageProcessor.extract_coordinates: for each raster row in ascending
order take the argmax column, skip unlit rows and rows strictly below the
bottom-row reference, and emit the calibrated cylindrical sample
(height_mm, radians(theta), dist_mm). -/
noncomputable def extract_coordinates (processed_img : List (List Bool)) (bottom_row : ℕ)
    (theta : ℝ) : List Vertex :=
  (processed_img.enum).filterMap (fun rc =>
    if rc.2.getD (np_argmax rc.2) false = true then
      if bottom_row < rc.1 then none
      else
        some (Vertex.mk (((bottom_row : ℝ) - (rc.1 : ℝ)) * height_mm_per_pixel)
          (theta * Real.pi / 180)
          (((np_argmax rc.2 : ℝ) - center_column) * radial_mm_per_pixel))
    else none)

/-- The Coordinate Extractor as worded in the specification: exactly the
rows r ≤ bottom_row with a valid (leftmost lit) column c are emitted, in
ascending row order, with height_px = bottom_row − r and
radial_px = c − center_column, both scaled to millimeters, and the capture
angle in radians. -/
noncomputable def extract_spec (processed_img : List (List Bool)) (bottom_row : ℕ)
    (theta : ℝ) : List Vertex :=
  ((processed_img.enum).filter
    (fun rc => decide (rc.1 ≤ bottom_row ∧ true ∈ rc.2))).map
    (fun rc => Vertex.mk (((bottom_row : ℝ) - (rc.1 : ℝ)) * height_mm_per_pixel)
      (theta * Real.pi / 180)
      ((((rc.2.findIdx? id).getD 0 : ℕ) - center_column) * radial_mm_per_pixel))

/-- An if-guarded filterMap is a filter followed by a map. -/
theorem filterMap_if_eq_filter_map {p : α → Bool} {g : α → β} :
    ∀ (l : List α),
      l.filterMap (fun x => if p x = true then some (g x) else none) = (l.filter p).map g := by
  intro l
  induction l with
  | nil => rfl
  | cons a t ih =>
    by_cases h : p a = true
    · simp only [List.filterMap_cons, List.filter_cons, h, if_pos, List.map_cons, ih]
    · simp only [List.filterMap_cons, List.filter_cons, h, if_neg, Bool.false_eq_true,
        List.map_cons, ih]
      simp

/-- The argmax entry of a binary row is lit exactly when the row has a lit
pixel. -/
theorem np_argmax_lit (row : List Bool) :
    row.getD (np_argmax row) false = true ↔ true ∈ row := by
  unfold np_argmax
  match h : row.findIdx? id with
  | some i =>
    obtain ⟨hi, hp, _⟩ := List.findIdx?_eq_some_iff_getElem.mp h
    simp only [Option.getD_some]
    constructor
    · intro _
      have : row[i] = true := by simpa using hp
      rw [← this]
      exact List.getElem_mem hi
    · intro _
      rw [List.getD_eq_getElem?_getD, List.getElem?_eq_getElem hi]
      simpa using hp
  | none =>
    rw [List.findIdx?_eq_none_iff] at h
    simp only [Option.getD_none]
    constructor
    · intro hg
      cases row with
      | nil => simp at hg
      | cons a t =>
        have := h a (List.mem_cons_self _ _)
        simp at this
        simp [this] at hg
    · intro hmem
      have := h true hmem
      simp at this

/-- The extractor agrees with the filter-then-map form pointwise. -/
theorem extract_eq_filter_map (processed_img : List (List Bool)) (bottom_row : ℕ)
    (theta : ℝ) :
    extract_coordinates processed_img bottom_row theta =
      ((processed_img.enum).filter
        (fun rc => decide (rc.1 ≤ bottom_row ∧ true ∈ rc.2))).map
        (fun rc => Vertex.mk (((bottom_row : ℝ) - (rc.1 : ℝ)) * height_mm_per_pixel)
          (theta * Real.pi / 180)
          ((((rc.2.findIdx? id).getD 0 : ℕ) - center_column) * radial_mm_per_pixel)) := by
  unfold extract_coordinates
  rw [← filterMap_if_eq_filter_map]
  apply List.filterMap_congr
  intro rc _
  by_cases hmem : true ∈ rc.2
  · by_cases hr : bottom_row < rc.1
    · rw [if_pos ((np_argmax_lit rc.2).mpr hmem), if_pos hr,
        if_neg (by simp only [decide_eq_true_eq]; rintro ⟨h1, _⟩; omega)]
    · rw [if_pos ((np_argmax_lit rc.2).mpr hmem), if_neg hr,
        if_pos (by simp only [decide_eq_true_eq]; exact ⟨by omega, hmem⟩)]
      rfl
  · rw [if_neg (fun h => hmem ((np_argmax_lit rc.2).mp h)),
      if_neg (by simp only [decide_eq_true_eq]; rintro ⟨_, h2⟩; exact hmem h2)]

/-- C3: the coordinate extractor emits a sample exactly for the rows
r ≤ bottom_row that have a valid column, computing
height_px = bottom_row − r and radial_px = c − center_column scaled by the
fixed millimeter-per-pixel factors, skipping every row r > bottom_row, and
the emitted ScanLine is ordered by ascending row (the filter over the
row-ascending enumeration). -/
theorem extract_coordinates_matches_spec (processed_img : List (List Bool))
    (bottom_row : ℕ) (theta : ℝ) :
    extract_coordinates processed_img bottom_row theta =
      extract_spec processed_img bottom_row theta := by
  rw [extract_eq_filter_map]
  rfl

/-- C10: the extractor emits at most one sample per raster row — only the
leftmost lit column of a row is converted — so the ScanLine has length at
most bottom_row + 1, and every emitted sample comes from a row r ≤
bottom_row whose leftmost lit column is the converted one. -/
theorem extract_coordinates_one_per_row (processed_img : List (List Bool))
    (bottom_row : ℕ) (theta : ℝ) :
    (extract_coordinates processed_img bottom_row theta).length ≤ bottom_row + 1 ∧
    ∀ v ∈ extract_coordinates processed_img bottom_row theta,
      ∃ r c, r ≤ bottom_row ∧ r < processed_img.length ∧
        (processed_img.getD r []).getD c false = true ∧
        (∀ c2, c2 < c → (processed_img.getD r []).getD c2 false = false) ∧
        v = Vertex.mk (((bottom_row : ℝ) - (r : ℝ)) * height_mm_per_pixel)
          (theta * Real.pi / 180)
          (((c : ℝ) - center_column) * radial_mm_per_pixel) := by
  rw [extract_eq_filter_map]
  constructor
  · rw [List.length_map]
    have h1 : ((processed_img.enum.filter
        (fun rc => decide (rc.1 ≤ bottom_row ∧ true ∈ rc.2))).map Prod.fst).Sublist
        (processed_img.enum.map Prod.fst) :=
      List.Sublist.map Prod.fst (List.filter_sublist _)
    have h2 : processed_img.enum.map Prod.fst = List.range processed_img.length := by
      show (processed_img.enumFrom 0).map Prod.fst = _
      rw [List.enumFrom_map_fst, List.range_eq_range']
    rw [h2] at h1
    have hnodup : ((processed_img.enum.filter
        (fun rc => decide (rc.1 ≤ bottom_row ∧ true ∈ rc.2))).map Prod.fst).Nodup :=
      (List.nodup_range _).sublist h1
    have hsubset : ∀ x ∈ (processed_img.enum.filter
        (fun rc => decide (rc.1 ≤ bottom_row ∧ true ∈ rc.2))).map Prod.fst,
        x ∈ List.range (bottom_row + 1) := by
      intro x hx
      rw [List.mem_map] at hx
      obtain ⟨rc, hrc, rfl⟩ := hx
      rw [List.mem_filter, decide_eq_true_eq] at hrc
      rw [List.mem_range]
      omega
    have hsp := (hnodup.subperm hsubset).length_le
    rw [List.length_map, List.length_range] at hsp
    exact hsp
  · intro v hv
    rw [List.mem_map] at hv
    obtain ⟨rc, hrc, rfl⟩ := hv
    rw [List.mem_filter, decide_eq_true_eq] at hrc
    obtain ⟨henum, hle, hmem⟩ := hrc
    have hget : processed_img[rc.1]? = some rc.2 := List.mem_enum_iff_getElem?.mp henum
    obtain ⟨hrlen, hrow_eq⟩ := List.getElem?_eq_some.mp hget
    have hrow : processed_img.getD rc.1 [] = rc.2 := by
      rw [List.getD_eq_getElem?_getD, hget]
      rfl
    have hfind : rc.2.findIdx? id = some (rc.2.findIdx id) :=
      List.findIdx?_eq_some_of_exists ⟨true, hmem, rfl⟩
    obtain ⟨hi, hp, hmin⟩ := List.findIdx?_eq_some_iff_getElem.mp hfind
    refine ⟨rc.1, rc.2.findIdx id, hle, hrlen, ?_, ?_, ?_⟩
    · rw [hrow, List.getD_eq_getElem?_getD, List.getElem?_eq_getElem hi]
      simpa using hp
    · intro c2 hc2
      rw [hrow, List.getD_eq_getElem?_getD, List.getElem?_eq_getElem (Nat.lt_trans hc2 hi)]
      have := hmin c2 hc2
      simpa using this
    · rw [hfind]
      rfl

/-- Witness for C10 at the one-pixel raster [[true]] with bottom_row = 0
and theta = 0. -/
theorem extract_coordinates_one_per_row_witness :
    (Vertex.mk ((((0 : ℕ) : ℝ) - ((0 : ℕ) : ℝ)) * height_mm_per_pixel)
        ((0 : ℝ) * Real.pi / 180)
        ((((np_argmax [true] : ℕ) : ℝ) - center_column) * radial_mm_per_pixel)) ∈
      extract_coordinates [[true]] 0 0 ∧
    (∃ r c, r ≤ 0 ∧ r < ([[true]] : List (List Bool)).length ∧
      (([[true]] : List (List Bool)).getD r []).getD c false = true ∧
      (∀ c2, c2 < c → (([[true]] : List (List Bool)).getD r []).getD c2 false = false) ∧
      Vertex.mk ((((0 : ℕ) : ℝ) - ((0 : ℕ) : ℝ)) * height_mm_per_pixel)
          ((0 : ℝ) * Real.pi / 180)
          ((((np_argmax [true] : ℕ) : ℝ) - center_column) * radial_mm_per_pixel) =
        Vertex.mk ((((0 : ℕ) : ℝ) - ((r : ℕ) : ℝ)) * height_mm_per_pixel)
          ((0 : ℝ) * Real.pi / 180)
          (((c : ℝ) - center_column) * radial_mm_per_pixel)) := by
  have hmem : (Vertex.mk ((((0 : ℕ) : ℝ) - ((0 : ℕ) : ℝ)) * height_mm_per_pixel)
      ((0 : ℝ) * Real.pi / 180)
      ((((np_argmax [true] : ℕ) : ℝ) - center_column) * radial_mm_per_pixel)) ∈
      extract_coordinates [[true]] 0 0 := by
    have hlist : extract_coordinates [[true]] 0 0 =
        [Vertex.mk ((((0 : ℕ) : ℝ) - ((0 : ℕ) : ℝ)) * height_mm_per_pixel)
          ((0 : ℝ) * Real.pi / 180)
          ((((np_argmax [true] : ℕ) : ℝ) - center_column) * radial_mm_per_pixel)] := rfl
    rw [hlist]
    exact List.mem_singleton.mpr rfl
  exact ⟨hmem, (extract_coordinates_one_per_row [[true]] 0 0).2 _ hmem⟩

/-- One row of the sequence-scanning loop of ImageProcessor.process_image
(Strategy 1): a detected row opens or extends the current run, an absent
row closes a pending run at the previous row. -/
def seqStep (st : List (ℕ × ℕ) × Option ℕ) (rc : ℕ × ℤ) : List (ℕ × ℕ) × Option ℕ :=
  if rc.2 ≠ -1 then
    (st.1, some (st.2.getD rc.1))
  else
    match st.2 with
    | some s => (st.1 ++ [(s, rc.1 - 1)], none)
    | none => st

/-- ImageProcessor.process_image, Strategy 1: all maximal contiguous
sequences of detected rows, with the final pending sequence closed at the
last raster row. -/
def find_sequences (detected_cols : List ℤ) : List (ℕ × ℕ) :=
  let st := (detected_cols.enum).foldl seqStep ([], none)
  match st.2 with
  | some s => st.1 ++ [(s, detected_cols.length - 1)]
  | none => st.1

/-- MIN_SEGMENT_LENGTH of ImageProcessor.process_image. -/
def MIN_SEGMENT_LENGTH : ℕ := 10

/-- ImageProcessor.process_image, Strategy 2: discard sequences shorter
than MIN_SEGMENT_LENGTH rows. -/
def valid_segments (detected_cols : List ℤ) : List (ℕ × ℕ) :=
  (find_sequences detected_cols).filter
    (fun se => decide ((MIN_SEGMENT_LENGTH : ℤ) ≤ (se.2 : ℤ) - (se.1 : ℤ) + 1))

/-- ImageProcessor.process_image, Strategy 3: the bottom row is the
maximum end among valid segments; with no valid segment, the lowest
detected row found scanning bottom-up; with no detection at all the
initial value 0 survives. -/
def bottom_row (detected_cols : List ℤ) : ℕ :=
  match valid_segments detected_cols with
  | [] =>
    ((List.range detected_cols.length).reverse.find?
      (fun r => decide (detected_cols.getD r (-1) ≠ -1))).getD 0
  | se :: rest => rest.foldl (fun a se2 => max a se2.2) se.2

/-- Row r of a detection array holds a detection. -/
def detAt (cols : List ℤ) (r : ℕ) : Prop := cols.getD r (-1) ≠ -1

/-- A maximal contiguous run of detected rows, as described by the
specification of the Segment Analyzer. -/
def isMaxRun (cols : List ℤ) (se : ℕ × ℕ) : Prop :=
  se.1 ≤ se.2 ∧ se.2 < cols.length ∧
  (∀ r, se.1 ≤ r → r ≤ se.2 → detAt cols r) ∧
  (se.1 = 0 ∨ ¬ detAt cols (se.1 - 1)) ∧
  ¬ detAt cols (se.2 + 1)

/-- Structural recursion equivalent to the sequence-scanning fold,
processing the rows after index n with pending run start `cur`. -/
def scanRec : ℕ → Option ℕ → List ℤ → List (ℕ × ℕ) × Option ℕ
  | _, cur, [] => ([], cur)
  | n, cur, c :: rest =>
    if c ≠ -1 then scanRec (n + 1) (some (cur.getD n)) rest
    else
      match cur with
      | some s =>
        ((s, n - 1) :: (scanRec (n + 1) none rest).1, (scanRec (n + 1) none rest).2)
      | none => scanRec (n + 1) none rest

/-- scanRec on the empty tail. -/
theorem scanRec_nil (n : ℕ) (cur : Option ℕ) : scanRec n cur [] = ([], cur) := rfl

/-- scanRec on a detected row. -/
theorem scanRec_cons_det (n : ℕ) (cur : Option ℕ) {c : ℤ} (rest : List ℤ) (hc : c ≠ -1) :
    scanRec n cur (c :: rest) = scanRec (n + 1) (some (cur.getD n)) rest := by
  rw [scanRec.eq_def]
  simp [hc]

/-- scanRec on an absent row while a run is pending. -/
theorem scanRec_cons_abs_some (n s : ℕ) (rest : List ℤ) :
    scanRec n (some s) ((-1) :: rest) =
      ((s, n - 1) :: (scanRec (n + 1) none rest).1, (scanRec (n + 1) none rest).2) := by
  rw [scanRec.eq_def]
  simp

/-- scanRec on an absent row with no pending run. -/
theorem scanRec_cons_abs_none (n : ℕ) (rest : List ℤ) :
    scanRec n none ((-1) :: rest) = scanRec (n + 1) none rest := by
  rw [scanRec.eq_def]
  simp

/-- The fold over the enumerated rows is scanRec with accumulated output. -/
theorem foldl_seqStep_eq_scanRec :
    ∀ (rest : List ℤ) (n : ℕ) (seqs : List (ℕ × ℕ)) (cur : Option ℕ),
      (List.enumFrom n rest).foldl seqStep (seqs, cur) =
        (seqs ++ (scanRec n cur rest).1, (scanRec n cur rest).2) := by
  intro rest
  induction rest with
  | nil => intro n seqs cur; simp [scanRec_nil]
  | cons c rest ih =>
    intro n seqs cur
    rw [List.enumFrom_cons, List.foldl_cons]
    by_cases hc : c = -1
    · subst hc
      cases cur with
      | none =>
        rw [show seqStep (seqs, none) (n, -1) = (seqs, none) from by simp [seqStep]]
        rw [ih, scanRec_cons_abs_none]
      | some s =>
        rw [show seqStep (seqs, some s) (n, -1) = (seqs ++ [(s, n - 1)], none) from by
          simp [seqStep]]
        rw [ih, scanRec_cons_abs_some]
        simp
    · rw [show seqStep (seqs, cur) (n, c) = (seqs, some (cur.getD n)) from by
        simp [seqStep, hc]]
      rw [ih, scanRec_cons_det _ _ _ hc]

/-- Appending a trailing absent row flushes the pending run. -/
theorem scanRec_append_stop :
    ∀ (rest : List ℤ) (n : ℕ) (cur : Option ℕ),
      (scanRec n cur (rest ++ [-1])).1 =
        (scanRec n cur rest).1 ++
          (match (scanRec n cur rest).2 with
            | some s => [(s, n + rest.length - 1)]
            | none => []) := by
  intro rest
  induction rest with
  | nil =>
    intro n cur
    cases cur with
    | none => simp [scanRec_nil, scanRec_cons_abs_none]
    | some s => simp [scanRec_nil, scanRec_cons_abs_some, scanRec_nil]
  | cons c rest ih =>
    intro n cur
    by_cases hc : c = -1
    · subst hc
      cases cur with
      | none =>
        rw [List.cons_append, scanRec_cons_abs_none, scanRec_cons_abs_none, ih]
        simp only [List.length_cons]
        rw [show n + 1 + rest.length = n + (rest.length + 1) from by omega]
      | some s =>
        rw [List.cons_append, scanRec_cons_abs_some, scanRec_cons_abs_some]
        simp only [List.cons_append]
        rw [ih]
        simp only [List.length_cons]
        rw [show n + 1 + rest.length = n + (rest.length + 1) from by omega]
    · rw [List.cons_append, scanRec_cons_det _ _ _ hc, scanRec_cons_det _ _ _ hc, ih]
      simp only [List.length_cons]
      rw [show n + 1 + rest.length = n + (rest.length + 1) from by omega]

/-- detAt on the head of a row list. -/
theorem detAt_cons_zero {c : ℤ} {rest : List ℤ} : detAt (c :: rest) 0 ↔ c ≠ -1 := by
  simp [detAt]

/-- detAt on the tail of a row list. -/
theorem detAt_cons_succ {c : ℤ} {rest : List ℤ} {i : ℕ} :
    detAt (c :: rest) (i + 1) ↔ detAt rest i := by
  simp [detAt]

/-- A run that was already open when scanRec started and is closed at the
first absent row of the remaining tail. -/
def ContinuedRun (rest : List ℤ) (n : ℕ) (cur : Option ℕ) (se : ℕ × ℕ) : Prop :=
  ∃ s, cur = some s ∧ ∃ t, t < rest.length ∧ ¬ detAt rest t ∧
    (∀ u, u < t → detAt rest u) ∧ se = (s, n + t - 1)

/-- A run lying entirely inside the remaining tail and closed by an absent
row of the tail. -/
def InnerRun (rest : List ℤ) (n : ℕ) (cur : Option ℕ) (se : ℕ × ℕ) : Prop :=
  ∃ i j, se = (n + i, n + j) ∧ i ≤ j ∧ j + 1 < rest.length ∧
    (∀ t, i ≤ t → t ≤ j → detAt rest t) ∧ ¬ detAt rest (j + 1) ∧
    (i = 0 → cur = none) ∧ (1 ≤ i → ¬ detAt rest (i - 1))

/-- Membership characterization for the runs emitted by scanRec. -/
theorem scanRec_mem :
    ∀ (rest : List ℤ) (n : ℕ) (cur : Option ℕ) (se : ℕ × ℕ),
      se ∈ (scanRec n cur rest).1 ↔
        ContinuedRun rest n cur se ∨ InnerRun rest n cur se := by
  intro rest
  induction rest with
  | nil =>
    intro n cur se
    rw [scanRec_nil]
    simp only [List.not_mem_nil, false_iff]
    rintro (⟨s, _, t, ht, _⟩ | ⟨i, j, _, _, hj, _⟩)
    · simp at ht
    · simp at hj
  | cons c rest ih =>
    intro n cur se
    by_cases hc : c = -1
    · subst hc
      cases cur with
      | none =>
        rw [scanRec_cons_abs_none, ih]
        constructor
        · rintro (⟨s, hs, _⟩ | ⟨i, j, hse, hij, hjlen, hdet, hnd, hi0, hi1⟩)
          · exact absurd hs (by simp)
          · right
            refine ⟨i + 1, j + 1, ?_, by omega, by simpa using hjlen, ?_, ?_, by omega, ?_⟩
            · rw [hse]
              simp only [Prod.mk.injEq]
              omega
            · intro t h1 h2
              obtain ⟨t2, rfl⟩ : ∃ t2, t = t2 + 1 := ⟨t - 1, by omega⟩
              rw [detAt_cons_succ]
              exact hdet t2 (by omega) (by omega)
            · rw [show j + 1 + 1 = (j + 1) + 1 from rfl, detAt_cons_succ]
              exact hnd
            · intro _
              rcases Nat.eq_zero_or_pos i with h0 | hpos
              · subst h0
                simpa using (by simp [detAt] : ¬ detAt ((-1 : ℤ) :: rest) 0)
              · rw [show i + 1 - 1 = (i - 1) + 1 from by omega, detAt_cons_succ]
                exact hi1 hpos
        · rintro (⟨s, hs, _⟩ | ⟨i, j, hse, hij, hjlen, hdet, hnd, hi0, hi1⟩)
          · exact absurd hs (by simp)
          · rcases Nat.eq_zero_or_pos i with h0 | hpos
            · subst h0
              have := hdet 0 le_rfl (by omega)
              rw [detAt_cons_zero] at this
              simp at this
            · right
              obtain ⟨i2, rfl⟩ : ∃ i2, i = i2 + 1 := ⟨i - 1, by omega⟩
              obtain ⟨j2, rfl⟩ : ∃ j2, j = j2 + 1 := ⟨j - 1, by omega⟩
              refine ⟨i2, j2, ?_, by omega, ?_, ?_, ?_, ?_, ?_⟩
              · rw [hse]
                simp only [Prod.mk.injEq]
                omega
              · simp only [List.length_cons] at hjlen
                omega
              · intro t h1 h2
                have := hdet (t + 1) (by omega) (by omega)
                rwa [detAt_cons_succ] at this
              · have := hnd
                rwa [show j2 + 1 + 1 = (j2 + 1) + 1 from rfl, detAt_cons_succ] at this
              · intro _
                rfl
              · intro h2
                have := hi1 (by omega)
                rwa [show i2 + 1 - 1 = (i2 - 1) + 1 from by omega, detAt_cons_succ] at this
      | some s =>
        rw [scanRec_cons_abs_some]
        simp only [List.mem_cons]
        rw [ih]
        constructor
        · rintro (rfl | (⟨s2, hs2, _⟩ | ⟨i, j, hse, hij, hjlen, hdet, hnd, hi0, hi1⟩))
          · left
            exact ⟨s, rfl, 0, by simp, by simp [detAt], fun u hu => absurd hu (by omega),
              by congr 1 <;> omega⟩
          · exact absurd hs2 (by simp)
          · right
            refine ⟨i + 1, j + 1, ?_, by omega, by simpa using hjlen, ?_, ?_, by omega, ?_⟩
            · rw [hse]
              simp only [Prod.mk.injEq]
              omega
            · intro t h1 h2
              obtain ⟨t2, rfl⟩ : ∃ t2, t = t2 + 1 := ⟨t - 1, by omega⟩
              rw [detAt_cons_succ]
              exact hdet t2 (by omega) (by omega)
            · rw [show j + 1 + 1 = (j + 1) + 1 from rfl, detAt_cons_succ]
              exact hnd
            · intro _
              rcases Nat.eq_zero_or_pos i with h0 | hpos
              · subst h0
                simp [detAt]
              · rw [show i + 1 - 1 = (i - 1) + 1 from by omega, detAt_cons_succ]
                exact hi1 hpos
        · rintro (⟨s2, hs2, t, htlen, htnd, htdet, hse⟩ | ⟨i, j, hse, hij, hjlen, hdet, hnd, hi0, hi1⟩)
          · left
            obtain rfl : s2 = s := by injection hs2.symm
            rcases Nat.eq_zero_or_pos t with h0 | hpos
            · subst h0
              rw [hse]
              congr 1
            · have := htdet 0 hpos
              rw [detAt_cons_zero] at this
              simp at this
          · rcases Nat.eq_zero_or_pos i with h0 | hpos
            · subst h0
              have := hdet 0 le_rfl (by omega)
              rw [detAt_cons_zero] at this
              simp at this
            · right
              right
              obtain ⟨i2, rfl⟩ : ∃ i2, i = i2 + 1 := ⟨i - 1, by omega⟩
              obtain ⟨j2, rfl⟩ : ∃ j2, j = j2 + 1 := ⟨j - 1, by omega⟩
              refine ⟨i2, j2, ?_, by omega, ?_, ?_, ?_, ?_, ?_⟩
              · rw [hse]
                simp only [Prod.mk.injEq]
                omega
              · simp only [List.length_cons] at hjlen
                omega
              · intro t h1 h2
                have := hdet (t + 1) (by omega) (by omega)
                rwa [detAt_cons_succ] at this
              · have := hnd
                rwa [show j2 + 1 + 1 = (j2 + 1) + 1 from rfl, detAt_cons_succ] at this
              · intro _
                rfl
              · intro h2
                have := hi1 (by omega)
                rwa [show i2 + 1 - 1 = (i2 - 1) + 1 from by omega, detAt_cons_succ] at this
    · rw [scanRec_cons_det _ _ _ hc, ih]
      have hdet0 : detAt (c :: rest) 0 := detAt_cons_zero.mpr hc
      cases cur with
      | none =>
        constructor
        · rintro (⟨s2, hs2, t2, htlen, htnd, htdet, hse⟩ | ⟨i2, j2, hse, hij, hjlen, hdet, hnd, hi0, hi1⟩)
          · obtain rfl : s2 = n := by injection hs2.symm
            right
            refine ⟨0, t2, ?_, by omega, ?_, ?_, ?_, fun _ => rfl,
              fun h => absurd h (by omega)⟩
            · rw [hse]
              simp only [Prod.mk.injEq]
              omega
            · simp only [List.length_cons]
              omega
            · intro t h1 h2
              rcases Nat.eq_zero_or_pos t with h0 | hpos
              · subst h0; exact hdet0
              · obtain ⟨t3, rfl⟩ : ∃ t3, t = t3 + 1 := ⟨t - 1, by omega⟩
                rw [detAt_cons_succ]
                exact htdet t3 (by omega)
            · rw [detAt_cons_succ]
              exact htnd
          · have hi2pos : 1 ≤ i2 := by
              by_contra h0
              have : i2 = 0 := by omega
              subst this
              exact absurd (hi0 rfl) (by simp)
            right
            refine ⟨i2 + 1, j2 + 1, ?_, by omega, by simpa using hjlen, ?_, ?_, by omega, ?_⟩
            · rw [hse]
              simp only [Prod.mk.injEq]
              omega
            · intro t h1 h2
              obtain ⟨t3, rfl⟩ : ∃ t3, t = t3 + 1 := ⟨t - 1, by omega⟩
              rw [detAt_cons_succ]
              exact hdet t3 (by omega) (by omega)
            · rw [show j2 + 1 + 1 = (j2 + 1) + 1 from rfl, detAt_cons_succ]
              exact hnd
            · intro _
              rw [show i2 + 1 - 1 = (i2 - 1) + 1 from by omega, detAt_cons_succ]
              exact hi1 hi2pos
        · rintro (⟨s2, hs2, _⟩ | ⟨i, j, hse, hij, hjlen, hdet, hnd, hi0, hi1⟩)
          · exact absurd hs2 (by simp)
          · rcases Nat.eq_zero_or_pos i with h0 | hpos
            · subst h0
              left
              refine ⟨n, rfl, j, ?_, ?_, ?_, ?_⟩
              · simp only [List.length_cons] at hjlen
                omega
              · have := hnd
                rwa [detAt_cons_succ] at this
              · intro u hu
                have := hdet (u + 1) (by omega) (by omega)
                rwa [detAt_cons_succ] at this
              · rw [hse]
                simp only [Prod.mk.injEq]
                omega
            · right
              obtain ⟨i2, rfl⟩ : ∃ i2, i = i2 + 1 := ⟨i - 1, by omega⟩
              obtain ⟨j2, rfl⟩ : ∃ j2, j = j2 + 1 := ⟨j - 1, by omega⟩
              have hi2pos : 1 ≤ i2 := by
                by_contra h0
                have : i2 = 0 := by omega
                subst this
                have := hi1 (by omega)
                exact this hdet0
              refine ⟨i2, j2, ?_, by omega, ?_, ?_, ?_, by omega, ?_⟩
              · rw [hse]
                simp only [Prod.mk.injEq]
                omega
              · simp only [List.length_cons] at hjlen
                omega
              · intro t h1 h2
                have := hdet (t + 1) (by omega) (by omega)
                rwa [detAt_cons_succ] at this
              · have := hnd
                rwa [show j2 + 1 + 1 = (j2 + 1) + 1 from rfl, detAt_cons_succ] at this
              · intro _
                have := hi1 (by omega)
                rwa [show i2 + 1 - 1 = (i2 - 1) + 1 from by omega, detAt_cons_succ] at this
      | some s =>
        constructor
        · rintro (⟨s2, hs2, t2, htlen, htnd, htdet, hse⟩ | ⟨i2, j2, hse, hij, hjlen, hdet, hnd, hi0, hi1⟩)
          · have hs2e : s2 = s := by injection hs2.symm
            rw [hs2e] at hse
            left
            refine ⟨s, rfl, t2 + 1, ?_, ?_, ?_, ?_⟩
            · simp only [List.length_cons]
              omega
            · rw [detAt_cons_succ]
              exact htnd
            · intro u hu
              rcases Nat.eq_zero_or_pos u with h0 | hpos
              · subst h0; exact hdet0
              · obtain ⟨u2, rfl⟩ : ∃ u2, u = u2 + 1 := ⟨u - 1, by omega⟩
                rw [detAt_cons_succ]
                exact htdet u2 (by omega)
            · rw [hse]
              simp only [Prod.mk.injEq, true_and]
              omega
          · have hi2pos : 1 ≤ i2 := by
              by_contra h0
              have : i2 = 0 := by omega
              subst this
              exact absurd (hi0 rfl) (by simp)
            right
            refine ⟨i2 + 1, j2 + 1, ?_, by omega, by simpa using hjlen, ?_, ?_, by omega, ?_⟩
            · rw [hse]
              simp only [Prod.mk.injEq]
              omega
            · intro t h1 h2
              obtain ⟨t3, rfl⟩ : ∃ t3, t = t3 + 1 := ⟨t - 1, by omega⟩
              rw [detAt_cons_succ]
              exact hdet t3 (by omega) (by omega)
            · rw [show j2 + 1 + 1 = (j2 + 1) + 1 from rfl, detAt_cons_succ]
              exact hnd
            · intro _
              rw [show i2 + 1 - 1 = (i2 - 1) + 1 from by omega, detAt_cons_succ]
              exact hi1 hi2pos
        · rintro (⟨s2, hs2, t, htlen, htnd, htdet, hse⟩ | ⟨i, j, hse, hij, hjlen, hdet, hnd, hi0, hi1⟩)
          · have hs2e : s2 = s := by injection hs2.symm
            rw [hs2e] at hse
            rcases Nat.eq_zero_or_pos t with h0 | hpos
            · subst h0
              exact absurd hdet0 htnd
            · obtain ⟨t2, rfl⟩ : ∃ t2, t = t2 + 1 := ⟨t - 1, by omega⟩
              left
              refine ⟨s, rfl, t2, by simp only [List.length_cons] at htlen; omega, ?_, ?_, ?_⟩
              · have := htnd
                rwa [detAt_cons_succ] at this
              · intro u hu
                have := htdet (u + 1) (by omega)
                rwa [detAt_cons_succ] at this
              · rw [hse]
                simp only [Prod.mk.injEq, true_and]
                omega
          · rcases Nat.eq_zero_or_pos i with h0 | hpos
            · subst h0
              exact absurd (hi0 rfl) (by simp)
            · right
              obtain ⟨i2, rfl⟩ : ∃ i2, i = i2 + 1 := ⟨i - 1, by omega⟩
              obtain ⟨j2, rfl⟩ : ∃ j2, j = j2 + 1 := ⟨j - 1, by omega⟩
              have hi2pos : 1 ≤ i2 := by
                by_contra h0
                have : i2 = 0 := by omega
                subst this
                have := hi1 (by omega)
                exact this hdet0
              refine ⟨i2, j2, ?_, by omega, ?_, ?_, ?_, by omega, ?_⟩
              · rw [hse]
                simp only [Prod.mk.injEq]
                omega
              · simp only [List.length_cons] at hjlen
                omega
              · intro t h1 h2
                have := hdet (t + 1) (by omega) (by omega)
                rwa [detAt_cons_succ] at this
              · have := hnd
                rwa [show j2 + 1 + 1 = (j2 + 1) + 1 from rfl, detAt_cons_succ] at this
              · intro _
                have := hi1 (by omega)
                rwa [show i2 + 1 - 1 = (i2 - 1) + 1 from by omega, detAt_cons_succ] at this

/-- Detection status is unchanged below the sentinel row. -/
theorem detAt_append_lt {cols : List ℤ} {t : ℕ} (h : t < cols.length) :
    detAt (cols ++ [-1]) t ↔ detAt cols t := by
  unfold detAt
  rw [List.getD_eq_getElem?_getD, List.getD_eq_getElem?_getD, List.getElem?_append_left h]

/-- No detection beyond the end of the array. -/
theorem detAt_ge_length {cols : List ℤ} {t : ℕ} (h : cols.length ≤ t) : ¬ detAt cols t := by
  unfold detAt
  rw [List.getD_eq_getElem?_getD, List.getElem?_eq_none h]
  simp

/-- The appended sentinel row holds no detection. -/
theorem detAt_append_sentinel {cols : List ℤ} : ¬ detAt (cols ++ [-1]) cols.length := by
  unfold detAt
  rw [List.getD_eq_getElem?_getD, List.getElem?_append_right (le_refl _)]
  simp

/-- find_sequences is scanRec run over the array with a sentinel absent
row appended. -/
theorem find_sequences_eq_scanRec (cols : List ℤ) :
    find_sequences cols = (scanRec 0 none (cols ++ [-1])).1 := by
  unfold find_sequences
  rw [show cols.enum = List.enumFrom 0 cols from rfl]
  rw [foldl_seqStep_eq_scanRec]
  rw [scanRec_append_stop]
  simp only [List.nil_append]
  cases h2 : (scanRec 0 none cols).2 with
  | none => simp
  | some s2 =>
    simp only []
    have e : 0 + cols.length - 1 = cols.length - 1 := by omega
    rw [e]

/-- C4 core: the emitted sequences are exactly the maximal contiguous runs
of detected rows. -/
theorem find_sequences_mem (cols : List ℤ) (se : ℕ × ℕ) :
    se ∈ find_sequences cols ↔ isMaxRun cols se := by
  rw [find_sequences_eq_scanRec, scanRec_mem]
  constructor
  · rintro (⟨s, hs, _⟩ | ⟨i, j, hse, hij, hjlen, hdet, hnd, _, hi1⟩)
    · exact absurd hs (by simp)
    · have hjc : j < cols.length := by
        simp only [List.length_append, List.length_singleton] at hjlen
        omega
      have hse2 : se = (i, j) := by
        rw [hse]
        congr 1 <;> omega
      rw [hse2]
      refine ⟨hij, hjc, ?_, ?_, ?_⟩
      · intro r h1 h2
        have h1b : i ≤ r := h1
        have h2b : r ≤ j := h2
        have := hdet r (by omega) (by omega)
        rwa [detAt_append_lt (by omega)] at this
      · rcases Nat.eq_zero_or_pos i with h0 | hpos
        · exact Or.inl h0
        · right
          have := hi1 (by omega)
          rwa [detAt_append_lt (by omega)] at this
      · show ¬ detAt cols (j + 1)
        rcases Nat.lt_or_ge (j + 1) cols.length with hlt | hge
        · have := hnd
          rwa [detAt_append_lt (by omega)] at this
        · exact detAt_ge_length hge
  · rintro ⟨hij, hjlen, hdet, hleft, hright⟩
    right
    refine ⟨se.1, se.2, ?_, hij, ?_, ?_, ?_, fun _ => rfl, ?_⟩
    · have he : (0 + se.1, 0 + se.2) = (se.1, se.2) := by
        congr 1 <;> omega
      rw [he]
    · simp only [List.length_append, List.length_singleton]
      omega
    · intro t h1 h2
      rw [detAt_append_lt (by omega)]
      exact hdet t h1 h2
    · rcases Nat.lt_or_ge (se.2 + 1) cols.length with hlt | hge
      · rw [detAt_append_lt (by omega)]
        exact hright
      · have he : se.2 + 1 = cols.length := by omega
        rw [he]
        exact detAt_append_sentinel
    · intro h1
      rcases hleft with h0 | hnd
      · omega
      · rw [detAt_append_lt (by omega)]
        exact hnd

/-- The running maximum of segment ends is an upper bound attained by the
seed or some segment. -/
theorem foldl_max_spec (rest : List (ℕ × ℕ)) :
    ∀ a : ℕ, a ≤ rest.foldl (fun x se2 => max x se2.2) a ∧
      (∀ se ∈ rest, se.2 ≤ rest.foldl (fun x se2 => max x se2.2) a) ∧
      (rest.foldl (fun x se2 => max x se2.2) a = a ∨
        ∃ se ∈ rest, rest.foldl (fun x se2 => max x se2.2) a = se.2) := by
  induction rest with
  | nil => intro a; exact ⟨le_rfl, by simp, Or.inl rfl⟩
  | cons l t ih =>
    intro a
    obtain ⟨h1, h2, h3⟩ := ih (max a l.2)
    refine ⟨le_trans (le_max_left _ _) h1, ?_, ?_⟩
    · intro se hm
      rcases List.mem_cons.mp hm with h | h
      · subst h; exact le_trans (le_max_right _ _) h1
      · exact h2 se h
    · rcases h3 with h | ⟨se, hm, he⟩
      · rcases Nat.le_total a l.2 with hle | hle
        · exact Or.inr ⟨l, by simp, by rw [List.foldl_cons, h]; omega⟩
        · exact Or.inl (by rw [List.foldl_cons, h]; omega)
      · exact Or.inr ⟨se, List.mem_cons_of_mem _ hm, he⟩

/-- A successful bottom-up search over the rows finds a satisfying row with
none below it satisfying the predicate. -/
theorem find?_reverse_range_some {h r : ℕ} {p : ℕ → Bool}
    (hf : (List.range h).reverse.find? p = some r) :
    p r = true ∧ r < h ∧ ∀ r2, r < r2 → r2 < h → p r2 = false := by
  rw [List.find?_eq_some] at hf
  obtain ⟨hp, as, bs, heq, hnotp⟩ := hf
  have heq2 : List.range h = bs.reverse ++ r :: as.reverse := by
    have hrev := congrArg List.reverse heq
    rw [List.reverse_reverse, List.reverse_append, List.reverse_cons] at hrev
    rw [hrev]
    simp
  rw [List.range_eq_range', List.range'_eq_append_iff] at heq2
  obtain ⟨k, hk, hbs, hras⟩ := heq2
  have hras2 := hras.symm
  rw [List.range'_eq_cons_iff] at hras2
  obtain ⟨hr, hpos, hasrev⟩ := hras2
  refine ⟨hp, by omega, ?_⟩
  intro r2 hgt hlt
  have hmem : r2 ∈ as.reverse := by
    rw [hasrev, List.mem_range'_1]
    omega
  have hmem2 : r2 ∈ as := by simpa using hmem
  have := hnotp r2 hmem2
  simpa using this

/-- An unsuccessful bottom-up search means no row satisfies the
predicate. -/
theorem find?_reverse_range_none {h : ℕ} {p : ℕ → Bool}
    (hf : (List.range h).reverse.find? p = none) : ∀ r, r < h → p r = false := by
  rw [List.find?_eq_none] at hf
  intro r hr
  have := hf r (by simp [List.mem_reverse, List.mem_range]; omega)
  simpa using this

/-- Decidability of row detection. -/
instance detAt_decidable (cols : List ℤ) (r : ℕ) : Decidable (detAt cols r) :=
  decidable_of_iff (cols.getD r (-1) ≠ -1) Iff.rfl

/-- C4 (amended): the surviving segments are exactly the maximal contiguous
runs of detected rows of length at least MIN_SEGMENT_LENGTH = 10; the
bottom-row reference is the maximum end-row among surviving segments; with
no surviving segment it falls back to the lowest individual detected row;
and with no detection at all it is 0, the FIRST raster row (not the last
one). -/
theorem segment_analysis_spec (detected_cols : List ℤ) :
    (∀ se, se ∈ valid_segments detected_cols ↔
      isMaxRun detected_cols se ∧ se.1 + MIN_SEGMENT_LENGTH ≤ se.2 + 1) ∧
    (∀ se0 vrest, valid_segments detected_cols = se0 :: vrest →
      (∀ se ∈ valid_segments detected_cols, se.2 ≤ bottom_row detected_cols) ∧
      (∃ se ∈ valid_segments detected_cols, bottom_row detected_cols = se.2)) ∧
    (valid_segments detected_cols = [] →
      ((∃ r, r < detected_cols.length ∧ detAt detected_cols r) →
        detAt detected_cols (bottom_row detected_cols) ∧
        bottom_row detected_cols < detected_cols.length ∧
        ∀ r2, bottom_row detected_cols < r2 → r2 < detected_cols.length →
          ¬ detAt detected_cols r2) ∧
      ((∀ r, r < detected_cols.length → ¬ detAt detected_cols r) →
        bottom_row detected_cols = 0)) := by
  refine ⟨?_, ?_, ?_⟩
  · intro se
    unfold valid_segments
    rw [List.mem_filter, find_sequences_mem]
    constructor
    · rintro ⟨hmax, hcond⟩
      rw [decide_eq_true_eq] at hcond
      simp only [MIN_SEGMENT_LENGTH] at hcond ⊢
      exact ⟨hmax, by omega⟩
    · rintro ⟨hmax, hcond⟩
      simp only [MIN_SEGMENT_LENGTH] at hcond
      refine ⟨hmax, ?_⟩
      rw [decide_eq_true_eq]
      simp only [MIN_SEGMENT_LENGTH]
      omega
  · intro se0 vrest hval
    have hb : bottom_row detected_cols = vrest.foldl (fun a se2 => max a se2.2) se0.2 := by
      unfold bottom_row
      rw [hval]
    obtain ⟨h1, h2, _⟩ := foldl_max_spec vrest se0.2
    constructor
    · intro se hm
      rw [hval] at hm
      rw [hb]
      rcases List.mem_cons.mp hm with h | h
      · subst h; exact h1
      · exact h2 se h
    · obtain ⟨_, _, h3⟩ := foldl_max_spec vrest se0.2
      rcases h3 with h | ⟨se, hm, he⟩
      · exact ⟨se0, by rw [hval]; exact List.mem_cons_self _ _, by rw [hb, h]⟩
      · exact ⟨se, by rw [hval]; exact List.mem_cons_of_mem _ hm, by rw [hb, he]⟩
  · intro hval
    have hb : bottom_row detected_cols =
        ((List.range detected_cols.length).reverse.find?
          (fun r => decide (detected_cols.getD r (-1) ≠ -1))).getD 0 := by
      unfold bottom_row
      rw [hval]
    constructor
    · rintro ⟨r0, hr0len, hr0det⟩
      cases hf : (List.range detected_cols.length).reverse.find?
          (fun r => decide (detected_cols.getD r (-1) ≠ -1)) with
      | none =>
        exfalso
        have := find?_reverse_range_none hf r0 hr0len
        rw [decide_eq_false_iff_not] at this
        exact this hr0det
      | some r =>
        obtain ⟨hp, hrlen, hmin⟩ := find?_reverse_range_some hf
        have hbr : bottom_row detected_cols = r := by rw [hb, hf]; rfl
        rw [decide_eq_true_eq] at hp
        refine ⟨by rw [hbr]; exact hp, by omega, ?_⟩
        intro r2 hgt hlt
        rw [hbr] at hgt
        have := hmin r2 hgt hlt
        rw [decide_eq_false_iff_not] at this
        exact this
    · intro hnone
      cases hf : (List.range detected_cols.length).reverse.find?
          (fun r => decide (detected_cols.getD r (-1) ≠ -1)) with
      | none => rw [hb, hf]; rfl
      | some r =>
        exfalso
        obtain ⟨hp, hrlen, _⟩ := find?_reverse_range_some hf
        rw [decide_eq_true_eq] at hp
        exact hnone r hrlen hp

/-- Counterexample to C4 as stated: with no detection at all (20 absent
rows) the code leaves bottom_row = 0, the FIRST raster row, not the last
raster row 19. -/
theorem segment_analysis_cex :
    bottom_row (List.replicate 20 (-1 : ℤ)) = 0 ∧ (0 : ℕ) ≠ 20 - 1 :=
  ⟨by decide, by decide⟩

/-- Witness for C4 on a 12-row fully detected array: one surviving segment
(0, 11) and bottom_row attains its end. -/
theorem segment_analysis_spec_witness :
    valid_segments (List.replicate 12 (5 : ℤ)) = [(0, 11)] ∧
    ((∀ se ∈ valid_segments (List.replicate 12 (5 : ℤ)),
        se.2 ≤ bottom_row (List.replicate 12 (5 : ℤ))) ∧
     (∃ se ∈ valid_segments (List.replicate 12 (5 : ℤ)),
        bottom_row (List.replicate 12 (5 : ℤ)) = se.2)) :=
  ⟨by decide,
    (segment_analysis_spec (List.replicate 12 (5 : ℤ))).2.1 (0, 11) [] (by decide)⟩

/-- Python int() truncation differs from the real value by at most 1. -/
theorem abs_pyInt_sub_le (t : ℝ) : |((pyInt t : ℤ) : ℝ) - t| ≤ 1 := by
  unfold pyInt
  by_cases h : 0 ≤ t
  · rw [if_pos h, abs_le]
    constructor
    · have := Int.sub_one_lt_floor t
      push_cast
      linarith [Int.floor_le t]
    · push_cast
      linarith [Int.floor_le t]
  · rw [if_neg h, abs_le]
    constructor
    · push_cast
      linarith [Int.le_ceil t]
    · have := Int.ceil_lt_add_one t
      push_cast
      linarith

/-- Reverse triangle inequality for the planar Euclidean norm. -/
theorem sqrt_sq_add_sq_sub_le (a b c d : ℝ) :
    |Real.sqrt (a ^ 2 + b ^ 2) - Real.sqrt (c ^ 2 + d ^ 2)| ≤
      Real.sqrt ((a - c) ^ 2 + (b - d) ^ 2) := by
  have h := Complex.abs.abs_abv_sub_le_abv_sub (Complex.mk a b) (Complex.mk c d)
  have e1 : Complex.abs (Complex.mk a b) = Real.sqrt (a ^ 2 + b ^ 2) := by
    rw [Complex.abs_apply, Complex.normSq_apply]
    ring_nf
  have e2 : Complex.abs (Complex.mk c d) = Real.sqrt (c ^ 2 + d ^ 2) := by
    rw [Complex.abs_apply, Complex.normSq_apply]
    ring_nf
  have e3 : Complex.abs (Complex.mk a b - Complex.mk c d) =
      Real.sqrt ((a - c) ^ 2 + (b - d) ^ 2) := by
    rw [Complex.abs_apply, Complex.normSq_apply]
    simp only [Complex.sub_re, Complex.sub_im]
    ring_nf
  rw [e1, e2, e3] at h
  exact h

/-- C7 (amended): projecting a CylindricalSample to Cartesian coordinates
and recomputing the radius as sqrt of x squared plus y squared reproduces
the scaled radius |radius| * RADIAL_SCALE only up to the integer
truncation error sqrt 2 introduced by Python int(), not within floating
tolerance. -/
theorem cylindrical_to_cartesian_radius (coord : Vertex) :
    |Real.sqrt ((cylindrical_to_cartesian coord).x ^ 2 +
        (cylindrical_to_cartesian coord).y ^ 2) -
      |coord.z| * RADIAL_SCALE| ≤ Real.sqrt 2 := by
  unfold cylindrical_to_cartesian
  simp only []
  set d := coord.z * RADIAL_SCALE with hd
  set a := d * Real.cos coord.y with ha
  set b := d * Real.sin coord.y with hb
  have hradius : Real.sqrt (a ^ 2 + b ^ 2) = |coord.z| * RADIAL_SCALE := by
    have hab : a ^ 2 + b ^ 2 = d ^ 2 := by
      rw [ha, hb]
      have hcs := Real.sin_sq_add_cos_sq coord.y
      calc (d * Real.cos coord.y) ^ 2 + (d * Real.sin coord.y) ^ 2
          = d ^ 2 * (Real.sin coord.y ^ 2 + Real.cos coord.y ^ 2) := by ring
        _ = d ^ 2 := by rw [hcs, mul_one]
    rw [hab, Real.sqrt_sq_eq_abs, hd, abs_mul]
    have : |RADIAL_SCALE| = RADIAL_SCALE := by
      rw [abs_of_nonneg]
      unfold RADIAL_SCALE
      norm_num
    rw [this]
  have htri := sqrt_sq_add_sq_sub_le ((pyInt a : ℤ) : ℝ) ((pyInt b : ℤ) : ℝ) a b
  have hx := abs_pyInt_sub_le a
  have hy := abs_pyInt_sub_le b
  have hsq : (((pyInt a : ℤ) : ℝ) - a) ^ 2 + (((pyInt b : ℤ) : ℝ) - b) ^ 2 ≤ 2 := by
    have h1 : (((pyInt a : ℤ) : ℝ) - a) ^ 2 ≤ 1 := by
      rw [← one_pow 2]
      exact sq_le_sq' (by linarith [abs_le.mp hx]) (by linarith [abs_le.mp hx])
    have h2 : (((pyInt b : ℤ) : ℝ) - b) ^ 2 ≤ 1 := by
      rw [← one_pow 2]
      exact sq_le_sq' (by linarith [abs_le.mp hy]) (by linarith [abs_le.mp hy])
    linarith
  have hs2 : Real.sqrt ((((pyInt a : ℤ) : ℝ) - a) ^ 2 + (((pyInt b : ℤ) : ℝ) - b) ^ 2) ≤
      Real.sqrt 2 := Real.sqrt_le_sqrt hsq
  calc |Real.sqrt (((pyInt a : ℤ) : ℝ) ^ 2 + ((pyInt b : ℤ) : ℝ) ^ 2) -
        |coord.z| * RADIAL_SCALE|
      = |Real.sqrt (((pyInt a : ℤ) : ℝ) ^ 2 + ((pyInt b : ℤ) : ℝ) ^ 2) -
        Real.sqrt (a ^ 2 + b ^ 2)| := by rw [hradius]
    _ ≤ Real.sqrt ((((pyInt a : ℤ) : ℝ) - a) ^ 2 + (((pyInt b : ℤ) : ℝ) - b) ^ 2) := htri
    _ ≤ Real.sqrt 2 := hs2

/-- Counterexample to C7 as stated: the sample (height 0, angle 0,
radius 5) projects to the integer-truncated Cartesian point (0, 0, 0), so
the recomputed radius is 0 while the scaled radius is 0.785 — the round
trip loses the entire radius, far beyond floating tolerance. -/
theorem cylindrical_to_cartesian_cex :
    cylindrical_to_cartesian (Vertex.mk 0 0 5) = Vertex.mk 0 0 0 ∧
    Real.sqrt ((cylindrical_to_cartesian (Vertex.mk 0 0 5)).x ^ 2 +
      (cylindrical_to_cartesian (Vertex.mk 0 0 5)).y ^ 2) = 0 ∧
    |(5 : ℝ)| * RADIAL_SCALE = 0.785 ∧
    (1 : ℝ) / 2 < |(0 : ℝ) - 0.785| := by
  have hfloor : ⌊(0.785 : ℝ)⌋ = 0 := by
    rw [Int.floor_eq_zero_iff]
    constructor <;> norm_num
  have hc : cylindrical_to_cartesian (Vertex.mk 0 0 5) = Vertex.mk 0 0 0 := by
    unfold cylindrical_to_cartesian pyInt
    simp only [Real.cos_zero, Real.sin_zero, mul_one, mul_zero]
    norm_num [RADIAL_SCALE, HEIGHT_SCALE, hfloor]
  refine ⟨hc, ?_, ?_, ?_⟩
  · rw [hc]
    norm_num
  · unfold RADIAL_SCALE
    norm_num
  · rw [show (0 : ℝ) - 0.785 = -0.785 from by norm_num, abs_neg,
      abs_of_nonneg (by norm_num : (0 : ℝ) ≤ 0.785)]
    norm_num

/-- REMOVE_BOTTOM_ROWS of ImageProcessor.process_image: the fixed-trim
depth hardcoded in the source. -/
def REMOVE_BOTTOM_ROWS : ℕ := 15

/-- Fixed-trim boundary strategy (image_processing.py lines 62-64):
unconditionally mark the last k rows absent. -/
def apply_fixed_trim (k : ℕ) (detected_cols : List ℤ) : List ℤ :=
  detected_cols.enum.map
    (fun rc => if detected_cols.length - k ≤ rc.1 then -1 else rc.2)

/-- Modelled from the spec: the direction-change boundary strategy is
absent from src/ (only the fixed trim at image_processing.py:62-65
exists); spec section 4.2 describes a least-squares line fit over the
valid (row, column) pairs of a window.  Slope by the standard normal
equations. -/
noncomputable def lsq_slope (pts : List (ℕ × ℤ)) : ℝ :=
  let n : ℝ := pts.length
  let sx : ℝ := (pts.map (fun p => (p.1 : ℝ))).sum
  let sy : ℝ := (pts.map (fun p => (p.2 : ℝ))).sum
  let sxy : ℝ := (pts.map (fun p => (p.1 : ℝ) * (p.2 : ℝ))).sum
  let sxx : ℝ := (pts.map (fun p => (p.1 : ℝ) ^ 2)).sum
  (n * sxy - sx * sy) / (n * sxx - sx ^ 2)

/-- Modelled from the spec: the valid (row, column) pairs with rows in
[lo, hi). -/
def window_points (cols : List ℤ) (lo hi : ℕ) : List (ℕ × ℤ) :=
  (List.range' lo (hi - lo)).filterMap
    (fun r => if cols.getD r (-1) ≠ -1 then some (r, cols.getD r (-1)) else none)

/-- Modelled from the spec: the fitted slope converted to an angle. -/
noncomputable def window_angle (pts : List (ℕ × ℤ)) : ℝ := Real.arctan (lsq_slope pts)

/-- Modelled from the spec: candidate row r qualifies when both windows
(immediately above and immediately below r) have at least 10 valid points
and the absolute angle difference exceeds the threshold (in degrees,
default 65). -/
def direction_change_at (cols : List ℤ) (window_size : ℕ) (threshold_deg : ℝ)
    (r : ℕ) : Prop :=
  10 ≤ (window_points cols (r - window_size) r).length ∧
  10 ≤ (window_points cols (r + 1) (r + 1 + window_size)).length ∧
  threshold_deg * Real.pi / 180 <
    |window_angle (window_points cols (r - window_size) r) -
      window_angle (window_points cols (r + 1) (r + 1 + window_size))|

/-- Modelled from the spec: candidate rows scanned bottom-up in fixed
steps of one row, skipping margins of window_size rows at both ends. -/
def candidate_rows (h window_size : ℕ) : List ℕ :=
  (List.range' window_size (h - 2 * window_size)).reverse

/-- Modelled from the spec: the first qualifying candidate row scanning
from the bottom wins; if none qualifies, fall back to the lowest row with
any detection, else the last row. -/
noncomputable def direction_change_boundary (cols : List ℤ) (window_size : ℕ)
    (threshold_deg : ℝ) : ℕ :=
  match (candidate_rows cols.length window_size).find?
      (fun r => @decide (direction_change_at cols window_size threshold_deg r)
        (Classical.propDecidable _)) with
  | some r => r
  | none =>
    match (List.range cols.length).reverse.find?
        (fun r => decide (cols.getD r (-1) ≠ -1)) with
    | some r => r
    | none => cols.length - 1

/-- Boundary classification strategies, selectable by configuration
(modelled from the spec; src/ hardcodes only the fixed trim). -/
inductive BoundaryStrategy where
  | fixedTrim (k : ℕ)
  | directionChange (window_size : ℕ) (threshold_deg : ℝ)

/-- Apply the selected boundary strategy: fixed trim forces the last k
rows absent; direction change forces every row strictly below the chosen
boundary absent. -/
noncomputable def apply_boundary_strategy (strategy : BoundaryStrategy)
    (cols : List ℤ) : List ℤ :=
  match strategy with
  | .fixedTrim k => apply_fixed_trim k cols
  | .directionChange w t =>
    cols.enum.map (fun rc => if direction_change_boundary cols w t < rc.1 then -1 else rc.2)

/-- A successful bottom-up search over a descending candidate list finds a
satisfying candidate that bounds every satisfying candidate from above. -/
theorem find?_reverse_range'_first {s n r : ℕ} {p : ℕ → Bool}
    (hf : (List.range' s n).reverse.find? p = some r) :
    r ∈ (List.range' s n).reverse ∧ p r = true ∧
      ∀ r2 ∈ (List.range' s n).reverse, p r2 = true → r2 ≤ r := by
  have hmem := List.mem_of_find?_eq_some hf
  have hp := List.find?_some hf
  refine ⟨hmem, hp, ?_⟩
  rw [List.find?_eq_some] at hf
  obtain ⟨_, as, bs, heq, hnotp⟩ := hf
  intro r2 hr2 hp2
  have hr2b : r2 ∈ as ++ r :: bs := by rw [← heq]; exact hr2
  rcases List.mem_append.mp hr2b with h | h
  · have := hnotp r2 h
    rw [hp2] at this
    simp at this
  · rcases List.mem_cons.mp h with h | h
    · exact h.le
    · have hpw : (List.range' s n).reverse.Pairwise (fun a b => b < a) := by
        rw [List.pairwise_reverse]
        exact List.pairwise_lt_range' s n 1 (by simp)
      rw [heq] at hpw
      have hgt := (List.pairwise_cons.mp (List.pairwise_append.mp hpw).2.1).1 r2 h
      omega

/-- Marking rows of an enumerated list by a predicate acts pointwise. -/
theorem getD_enum_mark (cols : List ℤ) (p : ℕ → Prop) [DecidablePred p] (r : ℕ)
    (hr : r < cols.length) :
    (cols.enum.map (fun rc => if p rc.1 then -1 else rc.2)).getD r (-1) =
      if p r then -1 else cols.getD r (-1) := by
  rw [List.getD_eq_getElem?_getD, List.getElem?_map]
  have h1 : cols.enum[r]? = some (r, cols[r]) := by
    simp [List.getElem?_enum, List.getElem?_eq_getElem hr]
  rw [h1, List.getD_eq_getElem?_getD, List.getElem?_eq_getElem hr]
  simp

/-- C9 (spec-modelled): the boundary classification step offers two
strategies selectable by configuration.  The fixed trim forces the last k
rows absent pointwise.  The direction-change strategy forces every row
strictly below the chosen boundary absent, where the chosen boundary is
the first candidate row, scanning bottom-up, whose two fitted window slope
angles differ by more than the threshold; when no candidate qualifies it
falls back to the lowest row with any detection, else the last row. -/
theorem boundary_classification_spec (cols : List ℤ) :
    (∀ k r, r < cols.length →
      (apply_boundary_strategy (.fixedTrim k) cols).getD r (-1) =
        if cols.length - k ≤ r then -1 else cols.getD r (-1)) ∧
    (∀ w t r, r < cols.length →
      (apply_boundary_strategy (.directionChange w t) cols).getD r (-1) =
        if direction_change_boundary cols w t < r then -1 else cols.getD r (-1)) ∧
    (∀ w t, (∃ r ∈ candidate_rows cols.length w, direction_change_at cols w t r) →
      direction_change_boundary cols w t ∈ candidate_rows cols.length w ∧
      direction_change_at cols w t (direction_change_boundary cols w t) ∧
      ∀ r ∈ candidate_rows cols.length w, direction_change_at cols w t r →
        r ≤ direction_change_boundary cols w t) ∧
    (∀ w t, (∀ r ∈ candidate_rows cols.length w, ¬ direction_change_at cols w t r) →
      ((∃ r, r < cols.length ∧ detAt cols r) →
        detAt cols (direction_change_boundary cols w t) ∧
        direction_change_boundary cols w t < cols.length ∧
        ∀ r2, direction_change_boundary cols w t < r2 → r2 < cols.length →
          ¬ detAt cols r2) ∧
      ((∀ r, r < cols.length → ¬ detAt cols r) →
        direction_change_boundary cols w t = cols.length - 1)) := by
  refine ⟨?_, ?_, ?_, ?_⟩
  · intro k r hr
    exact getD_enum_mark cols (fun i => cols.length - k ≤ i) r hr
  · intro w t r hr
    exact getD_enum_mark cols (fun i => direction_change_boundary cols w t < i) r hr
  · intro w t hex
    cases hfind : (candidate_rows cols.length w).find?
        (fun r => @decide (direction_change_at cols w t r) (Classical.propDecidable _)) with
    | none =>
      exfalso
      obtain ⟨r, hrmem, hrq⟩ := hex
      have hno := List.find?_eq_none.mp hfind r hrmem
      exact hno (@decide_eq_true _ (Classical.propDecidable _) hrq)
    | some r0 =>
      have hb : direction_change_boundary cols w t = r0 := by
        unfold direction_change_boundary
        rw [hfind]
      have hfind2 : (List.range' w (cols.length - 2 * w)).reverse.find?
          (fun r => @decide (direction_change_at cols w t r)
            (Classical.propDecidable _)) = some r0 := hfind
      obtain ⟨hmem, hp, hmax⟩ := find?_reverse_range'_first hfind2
      have hp2 : direction_change_at cols w t r0 := @of_decide_eq_true _ (Classical.propDecidable _) hp
      refine ⟨?_, ?_, ?_⟩
      · rw [hb]; exact hmem
      · rw [hb]; exact hp2
      · intro r hrmem hrq
        rw [hb]
        exact hmax r hrmem (@decide_eq_true _ (Classical.propDecidable _) hrq)
  · intro w t hnone
    have hfind : (candidate_rows cols.length w).find?
        (fun r => @decide (direction_change_at cols w t r)
          (Classical.propDecidable _)) = none := by
      rw [List.find?_eq_none]
      intro x hx
      intro hc
      exact hnone x hx (@of_decide_eq_true _ (Classical.propDecidable _) hc)
    constructor
    · intro hdet
      cases hfind2 : (List.range cols.length).reverse.find?
          (fun r => decide (cols.getD r (-1) ≠ -1)) with
      | none =>
        exfalso
        obtain ⟨r, hrlen, hrdet⟩ := hdet
        have hfalse := find?_reverse_range_none hfind2 r hrlen
        rw [decide_eq_false_iff_not] at hfalse
        exact hfalse hrdet
      | some r0 =>
        have hb : direction_change_boundary cols w t = r0 := by
          unfold direction_change_boundary
          rw [hfind, hfind2]
        obtain ⟨hp, hrlen, hmin⟩ := find?_reverse_range_some hfind2
        rw [decide_eq_true_eq] at hp
        refine ⟨?_, ?_, ?_⟩
        · rw [hb]; exact hp
        · rw [hb]; exact hrlen
        · intro r2 hgt hlt
          rw [hb] at hgt
          have hfalse := hmin r2 hgt hlt
          rw [decide_eq_false_iff_not] at hfalse
          exact hfalse
    · intro hnodet
      have hfind2 : (List.range cols.length).reverse.find?
          (fun r => decide (cols.getD r (-1) ≠ -1)) = none := by
        rw [List.find?_eq_none]
        intro x hx
        simp only [List.mem_reverse, List.mem_range] at hx
        intro hc
        rw [decide_eq_true_eq] at hc
        exact hnodet x hx hc
      unfold direction_change_boundary
      rw [hfind, hfind2]

/-- Witness for boundary_classification_spec at cols = [5, -1], k = 1,
window 1, threshold 65: the candidate list is empty, so the fallback picks
the lowest detected row. -/
theorem boundary_classification_spec_witness :
    ((0 : ℕ) < ([5, -1] : List ℤ).length ∧
      (apply_boundary_strategy (.fixedTrim 1) [5, -1]).getD 0 (-1) =
        if ([5, -1] : List ℤ).length - 1 ≤ 0 then -1
          else ([5, -1] : List ℤ).getD 0 (-1)) ∧
    (detAt [5, -1] (direction_change_boundary [5, -1] 1 65) ∧
      direction_change_boundary [5, -1] 1 65 < ([5, -1] : List ℤ).length ∧
      ∀ r2, direction_change_boundary [5, -1] 1 65 < r2 →
        r2 < ([5, -1] : List ℤ).length → ¬ detAt [5, -1] r2) :=
  ⟨⟨by decide, (boundary_classification_spec [5, -1]).1 1 0 (by decide)⟩,
   ((boundary_classification_spec [5, -1]).2.2.2 1 65
       (fun r hr => absurd hr (List.not_mem_nil r))).1
     ⟨0, by decide, by decide⟩⟩
